import Mathlib

/-!
# Verification development for `gogap/ketama` (`ketama.go`)

A shallow embedding of the consistent-hash ring of `ketama.go`.

* Go `string` values are Lean `String`s (valid UTF-8 text); `[]byte(s)` is the
  UTF-8 encoding of `s` as a list of byte values.
* `uint32` values are natural numbers; the program only compares them, and the
  checksum only applies xor, shift right and truncation to a byte, none of
  which can overflow.
* Go `int` (`virtualNodes`, the loop counter, `Weight`) is `Int`; the loops
  `for i := 0; i < k.virtualNodes; i++` run over `List.range` of the bound.
* `map[uint32]Node` is an association list with at most one entry per key;
  indexing a missing key yields the zero `Node`, as in Go.
* `interface{}` is `Option α` for an arbitrary payload type `α` (`none` is `nil`).
* The `sync.RWMutex` field is not part of the sequential state.

The standard-library functions used by the file (`crc32.ChecksumIEEE`,
`fmt.Sprintf("%s-%d", ..)`, `sort.Slice`, `sort.Search`) are transcribed from
the Go standard library.
-/

set_option maxRecDepth 100000

namespace HashRing

/-! ## Standard library: `hash/crc32` -/

/-- The IEEE polynomial `crc32.IEEE`, in reversed bit order. -/
def IEEE : Nat := 0xedb88320

/-- One round of the inner loop of `simplePopulateTable`. -/
def tableRound (poly crc : Nat) : Nat :=
  if crc &&& 1 = 1 then (crc >>> 1) ^^^ poly else crc >>> 1

/-- The entry `t[i]` written by `simplePopulateTable(poly, t)`: eight rounds from `uint32(i)`. -/
def tableEntry (poly i : Nat) : Nat :=
  (List.range 8).foldl (fun crc _ => tableRound poly crc) i

/-- Go `simpleUpdate(crc, tab, p)` for the IEEE table: complement, one table step per byte,
complement. `byte(crc)` is `crc % 256`, and `^crc` on a `uint32` is xor with `0xffffffff`. -/
def simpleUpdate (crc : Nat) (p : List Nat) : Nat :=
  let crc := crc ^^^ 0xffffffff
  let crc := p.foldl (fun crc v => tableEntry IEEE ((crc % 256) ^^^ v) ^^^ (crc >>> 8)) crc
  crc ^^^ 0xffffffff

/-- Go `crc32.ChecksumIEEE(data)`, that is `Update(0, IEEETable, data)`. -/
def ChecksumIEEE (data : List Nat) : Nat := simpleUpdate 0 data

/-! ## Strings and formatting -/

/-- The UTF-8 encoding of one code point, as byte values. -/
def encodeRune (c : Char) : List Nat :=
  let v := c.toNat
  if v ≤ 0x7f then [v]
  else if v ≤ 0x7ff then [0xc0 ||| (v >>> 6), 0x80 ||| (v &&& 0x3f)]
  else if v ≤ 0xffff then
    [0xe0 ||| (v >>> 12), 0x80 ||| ((v >>> 6) &&& 0x3f), 0x80 ||| (v &&& 0x3f)]
  else
    [0xf0 ||| (v >>> 18), 0x80 ||| ((v >>> 12) &&& 0x3f), 0x80 ||| ((v >>> 6) &&& 0x3f),
      0x80 ||| (v &&& 0x3f)]

/-- Go `[]byte(s)`. -/
def bytes (s : String) : List Nat := (s.data.map encodeRune).flatten

/-- Go `fmt.Sprintf("%s-%d", nodeID, i)`. -/
def Sprintf (nodeID : String) (i : Int) : String := nodeID ++ "-" ++ toString i

/-! ## Standard library: `sort` -/

/-- Go `sort.Slice(keys, func(i, j int) bool { return keys[i] < keys[j] })` on a slice of
`uint32`: the ascending rearrangement of the slice. Equal elements are indistinguishable, so
every correct sorting algorithm yields this list. -/
def sortSlice (keys : List Nat) : List Nat := keys.insertionSort (· ≤ ·)

/-- The loop of Go `sort.Search`: `for i < j { h := int(uint(i+j) >> 1); if !f(h) { i = h + 1 }
else { j = h } }; return i`. The first argument bounds the number of iterations; `j - i`
iterations always suffice because each one shrinks `j - i`. -/
def searchLoop (f : Nat → Bool) : Nat → Nat → Nat → Nat
  | 0, i, _ => i
  | fuel + 1, i, j =>
    if i < j then
      let h := (i + j) >>> 1
      if !f h then searchLoop f fuel (h + 1) j else searchLoop f fuel i h
    else i

/-- Go `sort.Search(n, f)`. -/
def Search (n : Nat) (f : Nat → Bool) : Nat := searchLoop f n 0 n

/-! ## Data model -/

/-- Go `type Node struct { ID string; Weight int; Value interface{} }`. -/
structure Node (α : Type) where
  ID : String
  Weight : Int
  Value : Option α
deriving DecidableEq

/-- The zero value `Node{}`. -/
def Node.zero {α : Type} : Node α := { ID := "", Weight := 0, Value := none }

/-- Go `m[key]` on a `map[uint32]Node`: the stored node, or the zero node for a missing key. -/
def mapIndex {α : Type} (m : List (Nat × Node α)) (key : Nat) : Node α :=
  match m.lookup key with
  | some node => node
  | none => Node.zero

/-- Go `m[key] = node`. -/
def mapStore {α : Type} (m : List (Nat × Node α)) (key : Nat) (node : Node α) :
    List (Nat × Node α) :=
  (key, node) :: m.filter (fun e => e.1 != key)

/-- Go `delete(m, key)`. -/
def mapDelete {α : Type} (m : List (Nat × Node α)) (key : Nat) : List (Nat × Node α) :=
  m.filter (fun e => e.1 != key)

/-- Go `type Ketama struct`, without the lock. -/
structure Ketama (α : Type) where
  sortedKeys : List Nat
  nodeHashMap : List (Nat × Node α)
  virtualNodes : Int
deriving DecidableEq

/-! ## Operations -/

/-- Go `generateNodeKey(nodeID, i)`. -/
def generateNodeKey (nodeID : String) (i : Int) : Nat :=
  let key := Sprintf nodeID i
  ChecksumIEEE (bytes key)

/-- Go `(*Ketama).addNode`: the placement loop, then the re-sort. -/
def addNode {α : Type} (k : Ketama α) (node : Node α) : Ketama α :=
  let k1 := (List.range k.virtualNodes.toNat).foldl
    (fun (st : Ketama α) (i : Nat) =>
      let nodeKey := generateNodeKey node.ID i
      { st with
        nodeHashMap := mapStore st.nodeHashMap nodeKey node
        sortedKeys := st.sortedKeys ++ [nodeKey] })
    k
  { k1 with sortedKeys := sortSlice k1.sortedKeys }

/-- Go `NewKetama(nodes, virtualNodes)`. -/
def NewKetama {α : Type} (nodes : List (Node α)) (virtualNodes : Int) : Ketama α :=
  nodes.foldl addNode { sortedKeys := [], nodeHashMap := [], virtualNodes := virtualNodes }

/-- Go `(*Ketama).AddNode`. -/
def AddNode {α : Type} (k : Ketama α) (node : Node α) : Ketama α := addNode k node

/-- Go `(*Ketama).RemoveNode`: filter the sequence by current owner, then delete the
recomputed keys from the map. -/
def RemoveNode {α : Type} (k : Ketama α) (nodeID : String) : Ketama α :=
  let newSortedKeys := k.sortedKeys.foldl
    (fun (acc : List Nat) (key : Nat) =>
      let node := mapIndex k.nodeHashMap key
      if node.ID ≠ nodeID then acc ++ [key] else acc)
    []
  let m := (List.range k.virtualNodes.toNat).foldl
    (fun (m : List (Nat × Node α)) (i : Nat) => mapDelete m (generateNodeKey nodeID i))
    k.nodeHashMap
  { k with sortedKeys := newSortedKeys, nodeHashMap := m }

/-- The index `idx` that `GetNode` uses on a non-empty ring: the result of the binary search
for the first position holding a value `>= keyHash`, with `len(sortedKeys)` wrapped to `0`. -/
def getNodeIdx {α : Type} (k : Ketama α) (key : String) : Nat :=
  let keyHash := ChecksumIEEE (bytes key)
  let idx := Search k.sortedKeys.length (fun i => decide (k.sortedKeys.getD i 0 ≥ keyHash))
  if idx = k.sortedKeys.length then 0 else idx

/-- Go `(*Ketama).GetNode`. -/
def GetNode {α : Type} (k : Ketama α) (key : String) : Node α × Bool :=
  if k.sortedKeys.length = 0 then (Node.zero, false)
  else
    let idx := getNodeIdx k key
    let node := mapIndex k.nodeHashMap (k.sortedKeys.getD idx 0)
    (node, true)

/-- Ring states reachable from `NewKetama` by `AddNode` and `RemoveNode` calls. -/
inductive Reachable {α : Type} : Ketama α → Prop
  | init (nodes : List (Node α)) (virtualNodes : Int) : Reachable (NewKetama nodes virtualNodes)
  | add {k : Ketama α} (node : Node α) : Reachable k → Reachable (AddNode k node)
  | remove {k : Ketama α} (nodeID : String) : Reachable k → Reachable (RemoveNode k nodeID)

/-! ## Specification vocabulary -/

/-- The hashes `generateNodeKey(nodeID, i)` for `0 <= i < virtualNodes`, in loop order. -/
def derivedKeys (nodeID : String) (virtualNodes : Int) : List Nat :=
  (List.range virtualNodes.toNat).map (fun (i : Nat) => generateNodeKey nodeID i)

/-- The ring position that owns hash `h` in the sequence `keys`: the smallest element that is
`>= h`, or the smallest element overall when no element is `>= h`. -/
def IsSuccessor (keys : List Nat) (h p : Nat) : Prop :=
  p ∈ keys ∧
    ((h ≤ p ∧ ∀ x ∈ keys, h ≤ x → p ≤ x) ∨ ((∀ x ∈ keys, x < h) ∧ ∀ x ∈ keys, p ≤ x))

/-- The ring position `k.sortedKeys[idx]` that `GetNode` reads on a non-empty ring. -/
def selectedKey {α : Type} (k : Ketama α) (key : String) : Nat :=
  k.sortedKeys.getD (getNodeIdx k key) 0

/-- Every entry of the sequence has an entry in the map. -/
def SequenceMapped {α : Type} (k : Ketama α) : Prop :=
  ∀ p ∈ k.sortedKeys, (k.nodeHashMap.lookup p).isSome = true

/-- The map after storing `node` at every key of `keys`, in order. -/
def storeAll {α : Type} (m : List (Nat × Node α)) (keys : List Nat) (node : Node α) :
    List (Nat × Node α) :=
  keys.foldl (fun m key => mapStore m key node) m

/-- Ring states reachable from `NewKetama` by `AddNode` and `RemoveNode` calls in which no node
with identifier `nodeID` was ever passed to `NewKetama` or `AddNode`. -/
inductive ReachableWithout {α : Type} (nodeID : String) : Ketama α → Prop
  | init (nodes : List (Node α)) (virtualNodes : Int) :
      (∀ n ∈ nodes, n.ID ≠ nodeID) → ReachableWithout nodeID (NewKetama nodes virtualNodes)
  | add {k : Ketama α} (node : Node α) :
      node.ID ≠ nodeID → ReachableWithout nodeID k → ReachableWithout nodeID (AddNode k node)
  | remove {k : Ketama α} (other : String) :
      ReachableWithout nodeID k → ReachableWithout nodeID (RemoveNode k other)

/-- Every map entry sits at one of the derived hashes of the node stored there. -/
def Owned {α : Type} (k : Ketama α) : Prop :=
  ∀ p node, k.nodeHashMap.lookup p = some node → p ∈ derivedKeys node.ID k.virtualNodes

/-- The ring holds only placements of nodes from `all` whose identifier is not in `removed`:
every entry of `sortedKeys` has a map entry, and every map entry stores such a node at one of its
derived hashes. -/
def Remaining {α : Type} (all : List (Node α)) (virtualNodes : Int) (removed : List String)
    (k : Ketama α) : Prop :=
  k.virtualNodes = virtualNodes ∧
    (∀ p ∈ k.sortedKeys, (k.nodeHashMap.lookup p).isSome = true) ∧
    (∀ p node, k.nodeHashMap.lookup p = some node →
      node ∈ all ∧ node.ID ∉ removed ∧ p ∈ derivedKeys node.ID virtualNodes)

/-- A membership change: one `AddNode` or `RemoveNode` call. -/
inductive Op (α : Type) where
  | add (node : Node α) : Op α
  | remove (nodeID : String) : Op α

/-- The ring after one membership change. -/
def applyOp {α : Type} (k : Ketama α) : Op α → Ketama α
  | Op.add node => AddNode k node
  | Op.remove nodeID => RemoveNode k nodeID

/-- The ring after a sequence of membership changes, applied left to right. -/
def run {α : Type} (k : Ketama α) (ops : List (Op α)) : Ketama α := ops.foldl applyOp k

/-- The hash values occurring in `sortedKeys` are exactly the keys of `nodeHashMap`. -/
def Lockstep {α : Type} (k : Ketama α) : Prop :=
  ∀ p, p ∈ k.sortedKeys ↔ (k.nodeHashMap.lookup p).isSome = true

/-- No derived hash of `nodeID` is a key of `nodeHashMap` owned by a node with a different ID. -/
def NoForeignOwner {α : Type} (k : Ketama α) (nodeID : String) : Prop :=
  ∀ p ∈ derivedKeys nodeID k.virtualNodes,
    (k.nodeHashMap.lookup p).isSome = true → (mapIndex k.nodeHashMap p).ID = nodeID

/-- The condition `NoForeignOwner` can be checked by running over the derived hashes. -/
instance NoForeignOwner.decidable {α : Type} (k : Ketama α) (nodeID : String) :
    Decidable (NoForeignOwner k nodeID) :=
  inferInstanceAs (Decidable (∀ p ∈ derivedKeys nodeID k.virtualNodes,
    (k.nodeHashMap.lookup p).isSome = true → (mapIndex k.nodeHashMap p).ID = nodeID))

/-- Ring states reachable from `NewKetama` by `AddNode` calls and by `RemoveNode` calls made when
no derived hash of the removed identifier is owned by a node with a different ID. -/
inductive ReachableCollisionFree {α : Type} : Ketama α → Prop
  | init (nodes : List (Node α)) (virtualNodes : Int) :
      ReachableCollisionFree (NewKetama nodes virtualNodes)
  | add {k : Ketama α} (node : Node α) :
      ReachableCollisionFree k → ReachableCollisionFree (AddNode k node)
  | remove {k : Ketama α} (nodeID : String) :
      ReachableCollisionFree k → NoForeignOwner k nodeID →
      ReachableCollisionFree (RemoveNode k nodeID)

/-- The derived hashes of all nodes of a list, node by node in list order. -/
def allDerivedKeys {α : Type} (nodes : List (Node α)) (virtualNodes : Int) : List Nat :=
  nodes.flatMap (fun n => derivedKeys n.ID virtualNodes)

/-- The map entries that `addNode` writes for one node when none of its keys is present yet:
one entry per derived hash, the last written first. -/
def placements {α : Type} (virtualNodes : Int) (n : Node α) : List (Nat × Node α) :=
  (derivedKeys n.ID virtualNodes).reverse.map (fun p => (p, n))

/-! ## Example rings -/

/-- A node with identifier `"A"`. -/
def nodeA : Node Nat := { ID := "A", Weight := 1, Value := some 10 }

/-- A node with identifier `"B"`. -/
def nodeB : Node Nat := { ID := "B", Weight := 2, Value := some 20 }

/-- A node whose identifier has CRC-32 zero, so that `crc32(ID ++ s) = crc32(s)` for every `s`. -/
def nodeX : Node Nat := { ID := "lkibailn", Weight := 1, Value := some 30 }

/-- A node whose derived hashes coincide with those of `nodeA`. -/
def nodeXA : Node Nat := { ID := "lkibailnA", Weight := 1, Value := some 40 }

/-- A node with the empty identifier. -/
def nodeE : Node Nat := { ID := "", Weight := 5, Value := some 50 }

/-- The ring of the concrete scenario: `NewKetama([A, B], 3)`. -/
def ringAB : Ketama Nat := NewKetama [nodeA, nodeB] 3

/-! ## Sanity checks of the transcription -/

/-- The standard check value of CRC-32/IEEE. -/
theorem checksum_check_value : ChecksumIEEE (bytes "123456789") = 0xcbf43926 := by
  decide!

/-- The formatted key of replica `2` of node `"A"`. -/
theorem Sprintf_example : Sprintf "A" 2 = "A-2" := by
  decide!

/-- The identifier `"lkibailn"` has checksum zero, so prefixing it to a string does not change
the checksum: the derived hashes of `"lkibailn"` and `""`, and of `"lkibailnA"` and `"A"`,
coincide. -/
theorem checksum_collisions :
    ChecksumIEEE (bytes "lkibailn") = 0 ∧
      generateNodeKey "lkibailn" 0 = generateNodeKey "" 0 ∧
      generateNodeKey "lkibailnA" 0 = generateNodeKey "A" 0 ∧
      generateNodeKey "" 0 = 0x472a78bc ∧ generateNodeKey "A" 0 = 0x88ea54a6 := by
  decide!

/-! ## The loops in closed form -/

theorem foldl_append_if (p : Nat → Bool) (l acc : List Nat) :
    l.foldl (fun acc x => if p x = true then acc ++ [x] else acc) acc = acc ++ l.filter p := by
  induction l generalizing acc with
  | nil => simp
  | cons x xs ih =>
    simp only [List.foldl_cons, List.filter_cons]
    by_cases hx : p x = true
    · simp [hx, ih]
    · simp [hx, ih]

theorem foldl_mapDelete {α : Type} (keys : List Nat) (m : List (Nat × Node α)) :
    keys.foldl (fun m key => mapDelete m key) m = m.filter (fun e => decide (e.1 ∉ keys)) := by
  induction keys generalizing m with
  | nil => simp
  | cons x xs ih =>
    simp only [List.foldl_cons]
    rw [ih]
    simp only [mapDelete, List.filter_filter]
    apply List.filter_congr
    intro e _
    by_cases h1 : e.1 = x <;> by_cases h2 : e.1 ∈ xs <;> simp [h1, h2]

theorem RemoveNode_sortedKeys {α : Type} (k : Ketama α) (nodeID : String) :
    (RemoveNode k nodeID).sortedKeys =
      k.sortedKeys.filter (fun key => decide ((mapIndex k.nodeHashMap key).ID ≠ nodeID)) := by
  have h := foldl_append_if (fun key => decide ((mapIndex k.nodeHashMap key).ID ≠ nodeID))
    k.sortedKeys []
  simp only [decide_eq_true_eq, List.nil_append] at h
  simpa [RemoveNode] using h

theorem RemoveNode_nodeHashMap {α : Type} (k : Ketama α) (nodeID : String) :
    (RemoveNode k nodeID).nodeHashMap =
      k.nodeHashMap.filter (fun e => decide (e.1 ∉ derivedKeys nodeID k.virtualNodes)) := by
  have h := foldl_mapDelete (derivedKeys nodeID k.virtualNodes) k.nodeHashMap
  have hm : ∀ (l : List Nat) (m : List (Nat × Node α)),
      l.foldl (fun m (i : Nat) => mapDelete m (generateNodeKey nodeID i)) m =
        (l.map (fun (i : Nat) => generateNodeKey nodeID i)).foldl
          (fun m key => mapDelete m key) m := by
    intro l
    induction l with
    | nil => intro m; rfl
    | cons x xs ih => intro m; simp only [List.foldl_cons, List.map_cons, ih]
  rw [← h]
  exact hm _ _

theorem RemoveNode_virtualNodes {α : Type} (k : Ketama α) (nodeID : String) :
    (RemoveNode k nodeID).virtualNodes = k.virtualNodes := rfl

theorem addLoop_eq {α : Type} (node : Node α) (g : Nat → Nat) (l : List Nat) (st : Ketama α) :
    l.foldl (fun (st : Ketama α) (i : Nat) =>
        { st with
          nodeHashMap := mapStore st.nodeHashMap (g i) node
          sortedKeys := st.sortedKeys ++ [g i] }) st =
      { sortedKeys := st.sortedKeys ++ l.map g
        nodeHashMap := storeAll st.nodeHashMap (l.map g) node
        virtualNodes := st.virtualNodes } := by
  induction l generalizing st with
  | nil => simp [storeAll]
  | cons x xs ih => simp [ih, storeAll]

theorem addNode_eq {α : Type} (k : Ketama α) (node : Node α) :
    addNode k node =
      { sortedKeys := sortSlice (k.sortedKeys ++ derivedKeys node.ID k.virtualNodes)
        nodeHashMap := storeAll k.nodeHashMap (derivedKeys node.ID k.virtualNodes) node
        virtualNodes := k.virtualNodes } := by
  have h := addLoop_eq node (fun (i : Nat) => generateNodeKey node.ID i)
    (List.range k.virtualNodes.toNat) k
  simp only [addNode, derivedKeys, h]

/-! ## Map lemmas -/

theorem lookup_filter_key {α : Type} (q : Nat → Bool) (m : List (Nat × Node α)) (p : Nat) :
    (m.filter (fun e => q e.1)).lookup p = if q p = true then m.lookup p else none := by
  induction m with
  | nil => simp
  | cons e es ih =>
    obtain ⟨a, b⟩ := e
    by_cases hq : q a = true
    · by_cases hpa : p = a
      · subst hpa
        simp [List.filter_cons, hq, List.lookup_cons]
      · have hne : (p == a) = false := by simpa using hpa
        simp [List.filter_cons, hq, List.lookup_cons, hne, ih]
    · by_cases hpa : p = a
      · subst hpa
        simp [List.filter_cons, hq, List.lookup_cons, ih]
      · have hne : (p == a) = false := by simpa using hpa
        simp [List.filter_cons, hq, List.lookup_cons, hne, ih]

theorem lookup_mapDelete {α : Type} (m : List (Nat × Node α)) (key p : Nat) :
    (mapDelete m key).lookup p = if p = key then none else m.lookup p := by
  have h := lookup_filter_key (fun a => a != key) m p
  simp only [mapDelete, h]
  by_cases hp : p = key <;> simp [hp]

theorem lookup_mapStore {α : Type} (m : List (Nat × Node α)) (key : Nat) (node : Node α)
    (p : Nat) :
    (mapStore m key node).lookup p = if p = key then some node else m.lookup p := by
  by_cases hp : p = key
  · subst hp
    simp [mapStore, List.lookup_cons]
  · have hne : (p == key) = false := by simpa using hp
    have h := lookup_mapDelete m key p
    simp only [mapDelete] at h
    simp [mapStore, List.lookup_cons, hne, hp, h]

theorem lookup_storeAll {α : Type} (keys : List Nat) (m : List (Nat × Node α)) (node : Node α)
    (p : Nat) :
    (storeAll m keys node).lookup p = if p ∈ keys then some node else m.lookup p := by
  induction keys generalizing m with
  | nil => simp [storeAll]
  | cons x xs ih =>
    have hstep : storeAll m (x :: xs) node = storeAll (mapStore m x node) xs node := rfl
    rw [hstep, ih, lookup_mapStore]
    by_cases h1 : p ∈ xs
    · simp [h1]
    · by_cases h2 : p = x <;> simp [h1, h2]

theorem lookup_removed {α : Type} (keys : List Nat) (m : List (Nat × Node α)) (p : Nat) :
    (m.filter (fun e => decide (e.1 ∉ keys))).lookup p =
      if p ∈ keys then none else m.lookup p := by
  have h := lookup_filter_key (fun a => decide (a ∉ keys)) m p
  rw [h]
  by_cases hp : p ∈ keys <;> simp [hp]

theorem mapIndex_storeAll {α : Type} (keys : List Nat) (m : List (Nat × Node α)) (node : Node α)
    (p : Nat) :
    mapIndex (storeAll m keys node) p = if p ∈ keys then node else mapIndex m p := by
  unfold mapIndex
  rw [lookup_storeAll]
  by_cases hp : p ∈ keys <;> simp [hp]

theorem mapIndex_removed {α : Type} (keys : List Nat) (m : List (Nat × Node α)) (p : Nat) :
    mapIndex (m.filter (fun e => decide (e.1 ∉ keys))) p =
      if p ∈ keys then Node.zero else mapIndex m p := by
  unfold mapIndex
  rw [lookup_removed]
  by_cases hp : p ∈ keys <;> simp [hp]

theorem filter_storeAll {α : Type} (keys : List Nat) (q : Nat → Bool)
    (hq : ∀ x ∈ keys, q x = false) (m : List (Nat × Node α)) (node : Node α) :
    (storeAll m keys node).filter (fun e => q e.1) = m.filter (fun e => q e.1) := by
  induction keys generalizing m with
  | nil => rfl
  | cons x xs ih =>
    have hstep : storeAll m (x :: xs) node = storeAll (mapStore m x node) xs node := rfl
    rw [hstep, ih (fun y hy => hq y (List.mem_cons_of_mem _ hy))]
    have hx : q x = false := hq x (List.mem_cons_self _ _)
    simp only [mapStore, List.filter_cons, hx, List.filter_filter]
    simp only [Bool.false_eq_true, if_false]
    apply List.filter_congr
    intro e _
    by_cases he : e.1 = x
    · simp [he, hx]
    · simp [he]

/-! ## Binary search -/

theorem searchLoop_spec (f : Nat → Bool) (n : Nat)
    (hmono : ∀ a b, a ≤ b → b < n → f a = true → f b = true) :
    ∀ (fuel i j : Nat), i ≤ j → j ≤ n → j - i ≤ fuel →
      (∀ a, a < i → f a = false) → (∀ a, j ≤ a → a < n → f a = true) →
      searchLoop f fuel i j ≤ j ∧
        (∀ a, a < searchLoop f fuel i j → f a = false) ∧
        (∀ a, searchLoop f fuel i j ≤ a → a < n → f a = true) := by
  intro fuel
  induction fuel with
  | zero =>
    intro i j hij _ hfuel hlo hhi
    have hji : j = i := by omega
    subst hji
    exact ⟨le_refl _, hlo, hhi⟩
  | succ fuel ih =>
    intro i j hij hjn hfuel hlo hhi
    by_cases hlt : i < j
    · have hmid : (i + j) >>> 1 = (i + j) / 2 := Nat.shiftRight_one _
      have h1 : i ≤ (i + j) / 2 := by omega
      have h2 : (i + j) / 2 < j := by omega
      by_cases hf : f ((i + j) / 2) = true
      · have hrec := ih i ((i + j) / 2) h1 (by omega) (by omega) hlo
          (fun a ha han => hmono _ a ha han hf)
        have heq : searchLoop f (fuel + 1) i j = searchLoop f fuel i ((i + j) / 2) := by
          simp [searchLoop, hlt, hmid, hf]
        rw [heq]
        exact ⟨by omega, hrec.2.1, hrec.2.2⟩
      · have hf' : f ((i + j) / 2) = false := by simpa using hf
        have hrec := ih ((i + j) / 2 + 1) j (by omega) hjn (by omega)
          (fun a ha => by
            by_contra hc
            have hc' : f a = true := by simpa using hc
            have := hmono a ((i + j) / 2) (by omega) (by omega) hc'
            simp [hf'] at this)
          hhi
        have heq : searchLoop f (fuel + 1) i j = searchLoop f fuel ((i + j) / 2 + 1) j := by
          simp [searchLoop, hlt, hmid, hf']
        rw [heq]
        exact hrec
    · have hji : j = i := by omega
      subst hji
      have heq : searchLoop f (fuel + 1) j j = j := by simp [searchLoop]
      rw [heq]
      exact ⟨le_refl _, hlo, hhi⟩

theorem Search_sorted (keys : List Nat) (h : Nat) (hs : keys.Sorted (· ≤ ·)) :
    Search keys.length (fun i => decide (keys.getD i 0 ≥ h)) ≤ keys.length ∧
      (∀ a, a < Search keys.length (fun i => decide (keys.getD i 0 ≥ h)) →
        keys.getD a 0 < h) ∧
      (∀ a, Search keys.length (fun i => decide (keys.getD i 0 ≥ h)) ≤ a → a < keys.length →
        h ≤ keys.getD a 0) := by
  have hmono : ∀ a b, a ≤ b → b < keys.length →
      (fun i => decide (keys.getD i 0 ≥ h)) a = true →
      (fun i => decide (keys.getD i 0 ≥ h)) b = true := by
    intro a b hab hb ha
    simp only [ge_iff_le, decide_eq_true_eq] at ha ⊢
    have hle : keys.getD a 0 ≤ keys.getD b 0 := by
      rw [List.getD_eq_getElem _ _ (by omega), List.getD_eq_getElem _ _ hb]
      rcases Nat.lt_or_ge a b with hlt | hge
      · exact (List.pairwise_iff_getElem.mp hs) a b (by omega) hb hlt
      · have : a = b := by omega
        subst this
        exact le_refl _
    omega
  have hspec := searchLoop_spec _ keys.length hmono keys.length 0 keys.length (Nat.zero_le _)
    (le_refl _) (by omega) (fun a ha => absurd ha (Nat.not_lt_zero a))
    (fun a ha han => absurd han (by omega))
  refine ⟨hspec.1, ?_, ?_⟩
  · intro a ha
    have := hspec.2.1 a ha
    simpa using this
  · intro a ha han
    have := hspec.2.2 a ha han
    simpa using this

theorem selectedKey_isSuccessor {α : Type} (k : Ketama α) (key : String)
    (hs : k.sortedKeys.Sorted (· ≤ ·)) (hne : k.sortedKeys ≠ []) :
    IsSuccessor k.sortedKeys (ChecksumIEEE (bytes key)) (selectedKey k key) := by
  obtain ⟨hle, hlo, hhi⟩ := Search_sorted k.sortedKeys (ChecksumIEEE (bytes key)) hs
  have hlen : 0 < k.sortedKeys.length := List.length_pos.mpr hne
  have hget : ∀ x ∈ k.sortedKeys, ∃ a, a < k.sortedKeys.length ∧ k.sortedKeys.getD a 0 = x := by
    intro x hx
    obtain ⟨a, ha, hax⟩ := List.mem_iff_getElem.mp hx
    exact ⟨a, ha, by rw [List.getD_eq_getElem _ _ ha]; exact hax⟩
  have hmem : ∀ a, a < k.sortedKeys.length → k.sortedKeys.getD a 0 ∈ k.sortedKeys := by
    intro a ha
    rw [List.getD_eq_getElem _ _ ha]
    exact List.getElem_mem ha
  have hord : ∀ a b, a ≤ b → b < k.sortedKeys.length →
      k.sortedKeys.getD a 0 ≤ k.sortedKeys.getD b 0 := by
    intro a b hab hb
    rw [List.getD_eq_getElem _ _ (by omega), List.getD_eq_getElem _ _ hb]
    rcases Nat.lt_or_ge a b with hlt | hge
    · exact (List.pairwise_iff_getElem.mp hs) a b (by omega) hb hlt
    · have : a = b := by omega
      subst this
      exact le_refl _
  unfold selectedKey getNodeIdx
  simp only []
  by_cases hidx : Search k.sortedKeys.length
      (fun i => decide (k.sortedKeys.getD i 0 ≥ ChecksumIEEE (bytes key))) = k.sortedKeys.length
  · rw [if_pos hidx]
    refine ⟨hmem 0 hlen, Or.inr ⟨?_, ?_⟩⟩
    · intro x hx
      obtain ⟨a, ha, hax⟩ := hget x hx
      rw [← hax]
      exact hlo a (by rw [hidx]; exact ha)
    · intro x hx
      obtain ⟨a, ha, hax⟩ := hget x hx
      rw [← hax]
      exact hord 0 a (Nat.zero_le _) ha
  · rw [if_neg hidx]
    have hlt : Search k.sortedKeys.length
        (fun i => decide (k.sortedKeys.getD i 0 ≥ ChecksumIEEE (bytes key))) <
          k.sortedKeys.length := lt_of_le_of_ne hle hidx
    refine ⟨hmem _ hlt, Or.inl ⟨hhi _ (le_refl _) hlt, ?_⟩⟩
    intro x hx hhx
    obtain ⟨a, ha, hax⟩ := hget x hx
    rw [← hax]
    apply hord _ a _ ha
    by_contra hc
    have := hlo a (by omega)
    omega

theorem IsSuccessor.unique {keys : List Nat} {h p q : Nat}
    (hp : IsSuccessor keys h p) (hq : IsSuccessor keys h q) : p = q := by
  obtain ⟨hpm, hp'⟩ := hp
  obtain ⟨hqm, hq'⟩ := hq
  rcases hp' with ⟨hp1, hp2⟩ | ⟨hp1, hp2⟩ <;> rcases hq' with ⟨hq1, hq2⟩ | ⟨hq1, hq2⟩
  · exact le_antisymm (hp2 q hqm hq1) (hq2 p hpm hp1)
  · have := hq1 p hpm
    omega
  · have := hp1 q hqm
    omega
  · exact le_antisymm (hp2 q hqm) (hq2 p hpm)

theorem GetNode_of_ne_nil {α : Type} (k : Ketama α) (key : String) (hne : k.sortedKeys ≠ []) :
    GetNode k key = (mapIndex k.nodeHashMap (selectedKey k key), true) := by
  have hlen : k.sortedKeys.length ≠ 0 := by
    intro h
    exact hne (List.length_eq_zero.mp h)
  simp [GetNode, hlen, selectedKey]

theorem GetNode_of_nil {α : Type} (k : Ketama α) (key : String) (hnil : k.sortedKeys = []) :
    GetNode k key = (Node.zero, false) := by
  simp [GetNode, hnil]

/-! ## Invariants of reachable rings -/

theorem foldl_addNode_induction {α : Type} (P : Ketama α → Prop)
    (hadd : ∀ k node, P k → P (addNode k node)) (nodes : List (Node α)) (k : Ketama α)
    (hk : P k) : P (nodes.foldl addNode k) := by
  induction nodes generalizing k with
  | nil => exact hk
  | cons x xs ih => exact ih _ (hadd k x hk)

theorem addNode_sorted {α : Type} (k : Ketama α) (node : Node α) :
    (addNode k node).sortedKeys.Sorted (· ≤ ·) := by
  rw [addNode_eq]
  exact List.sorted_insertionSort _ _

theorem RemoveNode_sorted {α : Type} (k : Ketama α) (nodeID : String)
    (hs : k.sortedKeys.Sorted (· ≤ ·)) : (RemoveNode k nodeID).sortedKeys.Sorted (· ≤ ·) := by
  rw [RemoveNode_sortedKeys]
  exact hs.filter _

theorem NewKetama_sorted {α : Type} (nodes : List (Node α)) (virtualNodes : Int) :
    (NewKetama nodes virtualNodes).sortedKeys.Sorted (· ≤ ·) :=
  foldl_addNode_induction (fun k => k.sortedKeys.Sorted (· ≤ ·))
    (fun k node _ => addNode_sorted k node) nodes _ List.sorted_nil

theorem Reachable.sorted {α : Type} {k : Ketama α} (hk : Reachable k) :
    k.sortedKeys.Sorted (· ≤ ·) := by
  induction hk with
  | init nodes virtualNodes => exact NewKetama_sorted nodes virtualNodes
  | add node _ _ => exact addNode_sorted _ node
  | remove nodeID _ ih => exact RemoveNode_sorted _ nodeID ih

theorem addNode_virtualNodes {α : Type} (k : Ketama α) (node : Node α) :
    (addNode k node).virtualNodes = k.virtualNodes := by
  rw [addNode_eq]

theorem NewKetama_virtualNodes {α : Type} (nodes : List (Node α)) (virtualNodes : Int) :
    (NewKetama nodes virtualNodes).virtualNodes = virtualNodes :=
  foldl_addNode_induction (fun k => k.virtualNodes = virtualNodes)
    (fun k node hk => (addNode_virtualNodes k node).trans hk) nodes _ rfl

theorem run_virtualNodes {α : Type} (ops : List (Op α)) (k : Ketama α) :
    (run k ops).virtualNodes = k.virtualNodes := by
  induction ops generalizing k with
  | nil => rfl
  | cons op ops ih =>
    have hstep : run k (op :: ops) = run (applyOp k op) ops := rfl
    rw [hstep, ih]
    cases op with
    | add node => exact addNode_virtualNodes k node
    | remove nodeID => rfl

theorem Reachable.run {α : Type} {k : Ketama α} (hk : Reachable k) (ops : List (Op α)) :
    Reachable (run k ops) := by
  induction ops generalizing k with
  | nil => exact hk
  | cons op ops ih =>
    cases op with
    | add node => exact ih (Reachable.add node hk)
    | remove nodeID => exact ih (Reachable.remove nodeID hk)

theorem derivedKeys_of_nonpos (nodeID : String) (virtualNodes : Int) (hV : virtualNodes ≤ 0) :
    derivedKeys nodeID virtualNodes = [] := by
  have h0 : virtualNodes.toNat = 0 := by omega
  simp [derivedKeys, h0]

theorem mem_derivedKeys (nodeID : String) (virtualNodes i : Int) (h0 : 0 ≤ i)
    (hi : i < virtualNodes) : generateNodeKey nodeID i ∈ derivedKeys nodeID virtualNodes := by
  unfold derivedKeys
  refine List.mem_map.mpr ⟨i.toNat, List.mem_range.mpr (by omega), ?_⟩
  have hcast : ((i.toNat : Nat) : Int) = i := Int.toNat_of_nonneg h0
  rw [hcast]

theorem addNode_empty_of_nonpos {α : Type} (k : Ketama α) (node : Node α)
    (hV : k.virtualNodes ≤ 0) (hS : k.sortedKeys = []) (hM : k.nodeHashMap = []) :
    (addNode k node).sortedKeys = [] ∧ (addNode k node).nodeHashMap = [] := by
  rw [addNode_eq]
  simp [derivedKeys_of_nonpos _ _ hV, hS, hM, sortSlice, storeAll]

theorem RemoveNode_empty {α : Type} (k : Ketama α) (nodeID : String)
    (hS : k.sortedKeys = []) (hM : k.nodeHashMap = []) :
    (RemoveNode k nodeID).sortedKeys = [] ∧ (RemoveNode k nodeID).nodeHashMap = [] := by
  rw [RemoveNode_sortedKeys, RemoveNode_nodeHashMap]
  simp [hS, hM]

theorem run_empty_of_nonpos {α : Type} (ops : List (Op α)) (k : Ketama α)
    (hV : k.virtualNodes ≤ 0) (hS : k.sortedKeys = []) (hM : k.nodeHashMap = []) :
    (run k ops).sortedKeys = [] ∧ (run k ops).nodeHashMap = [] := by
  induction ops generalizing k with
  | nil => exact ⟨hS, hM⟩
  | cons op ops ih =>
    have hstep : run k (op :: ops) = run (applyOp k op) ops := rfl
    rw [hstep]
    cases op with
    | add node =>
      have h := addNode_empty_of_nonpos k node hV hS hM
      exact ih (AddNode k node) (by rw [AddNode, addNode_virtualNodes]; exact hV) h.1 h.2
    | remove nodeID =>
      have h := RemoveNode_empty k nodeID hS hM
      exact ih (RemoveNode k nodeID) hV h.1 h.2

theorem NewKetama_empty_of_nonpos {α : Type} (nodes : List (Node α)) (virtualNodes : Int)
    (hV : virtualNodes ≤ 0) :
    (NewKetama nodes virtualNodes).sortedKeys = [] ∧
      (NewKetama nodes virtualNodes).nodeHashMap = [] := by
  have h := foldl_addNode_induction
    (fun k : Ketama α => k.virtualNodes ≤ 0 ∧ k.sortedKeys = [] ∧ k.nodeHashMap = [])
    (fun k node hk => ⟨by rw [addNode_virtualNodes]; exact hk.1,
      addNode_empty_of_nonpos k node hk.1 hk.2.1 hk.2.2⟩)
    nodes { sortedKeys := [], nodeHashMap := [], virtualNodes := virtualNodes } ⟨hV, rfl, rfl⟩
  exact h.2

theorem searchLoop_le (f : Nat → Bool) :
    ∀ (fuel i j : Nat), i ≤ j → searchLoop f fuel i j ≤ j := by
  intro fuel
  induction fuel with
  | zero => intro i j hij; exact hij
  | succ fuel ih =>
    intro i j hij
    by_cases hlt : i < j
    · have hmid : (i + j) >>> 1 = (i + j) / 2 := Nat.shiftRight_one _
      by_cases hf : f ((i + j) / 2) = true
      · have heq : searchLoop f (fuel + 1) i j = searchLoop f fuel i ((i + j) / 2) := by
          simp [searchLoop, hlt, hmid, hf]
        rw [heq]
        have := ih i ((i + j) / 2) (by omega)
        omega
      · have hf' : f ((i + j) / 2) = false := by simpa using hf
        have heq : searchLoop f (fuel + 1) i j = searchLoop f fuel ((i + j) / 2 + 1) j := by
          simp [searchLoop, hlt, hmid, hf']
        rw [heq]
        exact ih _ _ (by omega)
    · have heq : searchLoop f (fuel + 1) i j = i := by simp [searchLoop, hlt]
      rw [heq]
      exact hij

theorem getNodeIdx_lt {α : Type} (k : Ketama α) (key : String) (hne : k.sortedKeys ≠ []) :
    getNodeIdx k key < k.sortedKeys.length := by
  have hlen : 0 < k.sortedKeys.length := List.length_pos.mpr hne
  have hle := searchLoop_le (fun i => decide (k.sortedKeys.getD i 0 ≥ ChecksumIEEE (bytes key)))
    k.sortedKeys.length 0 k.sortedKeys.length (Nat.zero_le _)
  unfold getNodeIdx Search
  simp only []
  split
  · exact hlen
  · omega

theorem selectedKey_mem {α : Type} (k : Ketama α) (key : String) (hne : k.sortedKeys ≠ []) :
    selectedKey k key ∈ k.sortedKeys := by
  have hlt := getNodeIdx_lt k key hne
  unfold selectedKey
  rw [List.getD_eq_getElem _ _ hlt]
  exact List.getElem_mem hlt

theorem lookup_isSome_of_mem {α : Type} (m : List (Nat × Node α)) (e : Nat × Node α)
    (he : e ∈ m) : (m.lookup e.1).isSome = true := by
  induction m with
  | nil => cases he
  | cons x xs ih =>
    obtain ⟨a, b⟩ := x
    by_cases hea : e.1 = a
    · simp [List.lookup_cons, hea]
    · have hne : (e.1 == a) = false := by simpa using hea
      rcases List.mem_cons.mp he with h | h
      · subst h
        exact absurd rfl hea
      · simp [List.lookup_cons, hne, ih h]

theorem eq_nil_of_lookup_none {α : Type} (m : List (Nat × Node α))
    (h : ∀ p, m.lookup p = none) : m = [] := by
  cases m with
  | nil => rfl
  | cons e es =>
    have h1 := lookup_isSome_of_mem (e :: es) e (List.mem_cons_self _ _)
    rw [h e.1] at h1
    cases h1

theorem mapIndex_of_lookup {α : Type} (m : List (Nat × Node α)) (p : Nat) (node : Node α)
    (h : m.lookup p = some node) : mapIndex m p = node := by
  simp [mapIndex, h]

theorem mapIndex_of_lookup_none {α : Type} (m : List (Nat × Node α)) (p : Nat)
    (h : m.lookup p = none) : mapIndex m p = Node.zero := by
  simp [mapIndex, h]

theorem addNode_owned {α : Type} (k : Ketama α) (node : Node α) (hk : Owned k) :
    Owned (addNode k node) := by
  intro p m hm
  rw [addNode_eq] at hm ⊢
  simp only [lookup_storeAll] at hm
  by_cases hp : p ∈ derivedKeys node.ID k.virtualNodes
  · rw [if_pos hp] at hm
    cases hm
    exact hp
  · rw [if_neg hp] at hm
    exact hk p m hm

theorem RemoveNode_owned {α : Type} (k : Ketama α) (nodeID : String) (hk : Owned k) :
    Owned (RemoveNode k nodeID) := by
  intro p m hm
  rw [RemoveNode_nodeHashMap, lookup_removed] at hm
  rw [RemoveNode_virtualNodes]
  by_cases hp : p ∈ derivedKeys nodeID k.virtualNodes
  · rw [if_pos hp] at hm
    cases hm
  · rw [if_neg hp] at hm
    exact hk p m hm

theorem Reachable.owned {α : Type} {k : Ketama α} (hk : Reachable k) : Owned k := by
  induction hk with
  | init nodes virtualNodes =>
    exact foldl_addNode_induction Owned addNode_owned nodes _ (fun p m hm => by cases hm)
  | add node _ ih => exact addNode_owned _ node ih
  | remove nodeID _ ih => exact RemoveNode_owned _ nodeID ih

theorem ReachableWithout.reachable {α : Type} {nodeID : String} {k : Ketama α}
    (hk : ReachableWithout nodeID k) : Reachable k := by
  induction hk with
  | init nodes virtualNodes _ => exact Reachable.init nodes virtualNodes
  | add node _ _ ih => exact Reachable.add node ih
  | remove other _ ih => exact Reachable.remove other ih

theorem ReachableWithout.not_stored {α : Type} {nodeID : String} {k : Ketama α}
    (hk : ReachableWithout nodeID k) :
    ∀ p node, k.nodeHashMap.lookup p = some node → node.ID ≠ nodeID := by
  have hadd : ∀ (k : Ketama α) (n : Node α), n.ID ≠ nodeID →
      (∀ p node, k.nodeHashMap.lookup p = some node → node.ID ≠ nodeID) →
      ∀ p node, (addNode k n).nodeHashMap.lookup p = some node → node.ID ≠ nodeID := by
    intro k n hn hk p node hm
    rw [addNode_eq] at hm
    simp only [lookup_storeAll] at hm
    by_cases hp : p ∈ derivedKeys n.ID k.virtualNodes
    · rw [if_pos hp] at hm
      cases hm
      exact hn
    · rw [if_neg hp] at hm
      exact hk p node hm
  induction hk with
  | init nodes virtualNodes hnodes =>
    have hgen : ∀ (l : List (Node α)) (k : Ketama α), (∀ n ∈ l, n.ID ≠ nodeID) →
        (∀ p node, k.nodeHashMap.lookup p = some node → node.ID ≠ nodeID) →
        ∀ p node, (l.foldl addNode k).nodeHashMap.lookup p = some node → node.ID ≠ nodeID := by
      intro l
      induction l with
      | nil => intro k _ hk; exact hk
      | cons x xs ih =>
        intro k hl hk
        exact ih (addNode k x) (fun n hn => hl n (List.mem_cons_of_mem _ hn))
          (hadd k x (hl x (List.mem_cons_self _ _)) hk)
    exact hgen nodes _ hnodes (fun p node hm => by cases hm)
  | add node hn _ ih => exact hadd _ node hn ih
  | remove other _ ih =>
    intro p node hm
    rw [RemoveNode_nodeHashMap, lookup_removed] at hm
    split at hm
    · cases hm
    · exact ih p node hm

/-! ## Lookup -/

/-- C1: on a ring whose `sortedKeys` is non-empty and sorted ascending, `GetNode(key)` returns
`(nodeHashMap[p], true)` where `p` is the smallest element of `sortedKeys` that is `>=` the
CRC-32 of the key, or the smallest element overall when no element is that large. -/
theorem GetNode_successor {α : Type} (k : Ketama α) (key : String)
    (hne : k.sortedKeys ≠ []) (hs : k.sortedKeys.Sorted (· ≤ ·)) :
    ∃ p, IsSuccessor k.sortedKeys (ChecksumIEEE (bytes key)) p ∧
      GetNode k key = (mapIndex k.nodeHashMap p, true) :=
  ⟨selectedKey k key, selectedKey_isSuccessor k key hs hne, GetNode_of_ne_nil k key hne⟩

/-- Instance of C1 on the ring `NewKetama([A, B], 3)` with the probe key `"anything"`. -/
theorem GetNode_successor_witness :
    ringAB.sortedKeys ≠ [] ∧ ringAB.sortedKeys.Sorted (· ≤ ·) ∧
      ∃ p, IsSuccessor ringAB.sortedKeys (ChecksumIEEE (bytes "anything")) p ∧
        GetNode ringAB "anything" = (mapIndex ringAB.nodeHashMap p, true) :=
  ⟨by decide!, by decide!, GetNode_successor ringAB "anything" (by decide!) (by decide!)⟩

/-- C2: `GetNode` reports not found exactly when `sortedKeys` has zero entries, the node
returned with it is the zero `Node`, and a ring built from no nodes reports not found for every
key and every `virtualNodes`. -/
theorem GetNode_not_found_iff {α : Type} (k : Ketama α) (key : String) (virtualNodes : Int) :
    ((GetNode k key).2 = false ↔ k.sortedKeys.length = 0) ∧
      ((GetNode k key).2 = false ↔ GetNode k key = (Node.zero, false)) ∧
      GetNode (NewKetama ([] : List (Node α)) virtualNodes) key = (Node.zero, false) := by
  refine ⟨?_, ?_, rfl⟩
  · by_cases h : k.sortedKeys.length = 0 <;> simp [GetNode, h]
  · by_cases h : k.sortedKeys.length = 0 <;> simp [GetNode, h]

/-- C3: after `AddNode(n)` on any ring, for every replica index `0 <= i < virtualNodes` the
lookup of the node's own derived key string `"<n.ID>-<i>"` returns `(n, true)` with the node
exactly as supplied; the derived hash is in `sortedKeys` and is owned by `n` in `nodeHashMap`. -/
theorem AddNode_own_keys_reachable {α : Type} (k : Ketama α) (n : Node α) (i : Int)
    (h0 : 0 ≤ i) (hi : i < k.virtualNodes) :
    GetNode (AddNode k n) (Sprintf n.ID i) = (n, true) ∧
      generateNodeKey n.ID i ∈ (AddNode k n).sortedKeys ∧
      (AddNode k n).nodeHashMap.lookup (generateNodeKey n.ID i) = some n := by
  have hg := mem_derivedKeys n.ID k.virtualNodes i h0 hi
  have hmemS : generateNodeKey n.ID i ∈ (AddNode k n).sortedKeys := by
    rw [AddNode, addNode_eq]
    exact (List.mem_insertionSort _).mpr (List.mem_append_right _ hg)
  have hM : (AddNode k n).nodeHashMap.lookup (generateNodeKey n.ID i) = some n := by
    rw [AddNode, addNode_eq]
    simp [lookup_storeAll, hg]
  have hne : (AddNode k n).sortedKeys ≠ [] := List.ne_nil_of_mem hmemS
  have hsucc := selectedKey_isSuccessor (AddNode k n) (Sprintf n.ID i) (addNode_sorted k n) hne
  have hself : IsSuccessor (AddNode k n).sortedKeys (generateNodeKey n.ID i)
      (generateNodeKey n.ID i) := ⟨hmemS, Or.inl ⟨le_refl _, fun x _ hx => hx⟩⟩
  have hsel : selectedKey (AddNode k n) (Sprintf n.ID i) = generateNodeKey n.ID i :=
    IsSuccessor.unique hsucc hself
  refine ⟨?_, hmemS, hM⟩
  rw [GetNode_of_ne_nil _ _ hne, hsel]
  simp [mapIndex, hM]

/-- Instance of C3: adding `B` to `NewKetama([A], 3)` and looking up `"B-2"`. -/
theorem AddNode_own_keys_reachable_witness :
    GetNode (AddNode (NewKetama [nodeA] 3) nodeB) "B-2" = (nodeB, true) :=
  (AddNode_own_keys_reachable (NewKetama [nodeA] 3) nodeB 2 (by decide) (by decide!)).1

/-- C10: with `virtualNodes <= 0`, after construction from any node list and any sequence of
`AddNode`/`RemoveNode` calls, `sortedKeys` and `nodeHashMap` are empty and `GetNode` reports not
found for every key. -/
theorem nonpositive_virtualNodes_ring_empty {α : Type} (nodes : List (Node α))
    (virtualNodes : Int) (ops : List (Op α)) (key : String) (hV : virtualNodes ≤ 0) :
    (run (NewKetama nodes virtualNodes) ops).sortedKeys = [] ∧
      (run (NewKetama nodes virtualNodes) ops).nodeHashMap = [] ∧
      GetNode (run (NewKetama nodes virtualNodes) ops) key = (Node.zero, false) := by
  have h0 := NewKetama_empty_of_nonpos nodes virtualNodes hV
  have h := run_empty_of_nonpos ops (NewKetama nodes virtualNodes)
    (by rw [NewKetama_virtualNodes]; exact hV) h0.1 h0.2
  exact ⟨h.1, h.2, GetNode_of_nil _ _ h.1⟩

/-- Instance of C10 with `virtualNodes = -2`, two initial nodes and three membership changes. -/
theorem nonpositive_virtualNodes_ring_empty_witness :
    GetNode (run (NewKetama [nodeA, nodeB] (-2)) [Op.add nodeA, Op.remove "B", Op.add nodeB])
      "anything" = (Node.zero, false) :=
  (nonpositive_virtualNodes_ring_empty [nodeA, nodeB] (-2)
    [Op.add nodeA, Op.remove "B", Op.add nodeB] "anything" (by decide)).2.2

/-! ## Removal -/

/-- C4, counterexample: on the reachable ring `NewKetama([X], 1)` with `X.ID = "lkibailn"`, the
hash of `"lkibailn-0"` equals the hash of `"-0"`. `RemoveNode("")` keeps the position (its owner
has a non-empty ID) and deletes its map entry, so afterwards every lookup returns the zero node,
whose ID is the removed identifier `""`, with found = true. -/
theorem RemoveNode_empty_id_still_resolved :
    Reachable (NewKetama [nodeX] 1) ∧
      GetNode (RemoveNode (NewKetama [nodeX] 1) "") "anything" = (Node.zero, true) ∧
      (Node.zero : Node Nat).ID = "" :=
  ⟨Reachable.init _ _, by decide!, rfl⟩

/-- C4, amended: for every ring state and every identifier `id` that is non-empty, or such that
no entry of `sortedKeys` that is a derived hash of `""` is owned by a node with a non-empty ID:
after `RemoveNode(id)` no lookup returns, with found = true, a node whose ID equals `id`. -/
theorem RemoveNode_not_resolved {α : Type} (k : Ketama α) (nodeID key : String) (node : Node α)
    (hid : nodeID ≠ "" ∨ ∀ p ∈ k.sortedKeys, p ∈ derivedKeys "" k.virtualNodes →
      (mapIndex k.nodeHashMap p).ID = "")
    (hget : GetNode (RemoveNode k nodeID) key = (node, true)) : node.ID ≠ nodeID := by
  have hne : (RemoveNode k nodeID).sortedKeys ≠ [] := by
    intro hnil
    rw [GetNode_of_nil _ _ hnil] at hget
    cases hget
  have hmem := selectedKey_mem (RemoveNode k nodeID) key hne
  rw [GetNode_of_ne_nil _ _ hne] at hget
  have hnode : node = mapIndex (RemoveNode k nodeID).nodeHashMap
      (selectedKey (RemoveNode k nodeID) key) := (congrArg Prod.fst hget).symm
  rw [RemoveNode_sortedKeys, List.mem_filter] at hmem
  obtain ⟨hpS, hpID⟩ := hmem
  have hpID' : (mapIndex k.nodeHashMap (selectedKey (RemoveNode k nodeID) key)).ID ≠ nodeID := by
    simpa using hpID
  rw [RemoveNode_nodeHashMap, mapIndex_removed] at hnode
  by_cases hp : selectedKey (RemoveNode k nodeID) key ∈ derivedKeys nodeID k.virtualNodes
  · rw [if_pos hp] at hnode
    rw [hnode]
    rcases hid with hid | hid
    · exact fun h => hid h.symm
    · intro h
      have hnid : nodeID = "" := h.symm
      subst hnid
      exact hpID' (hid _ hpS hp)
  · rw [if_neg hp] at hnode
    rw [hnode]
    exact hpID'

/-- Instance of the amended C4: removing `"A"` from `NewKetama([A, B], 3)`; the lookup of
`"anything"` then returns `B`. -/
theorem RemoveNode_not_resolved_witness :
    GetNode (RemoveNode ringAB "A") "anything" = (nodeB, true) ∧ nodeB.ID ≠ "A" :=
  ⟨by decide!, RemoveNode_not_resolved ringAB "A" "anything" nodeB (Or.inl (by decide))
    (by decide!)⟩

/-- C8, counterexample: on `NewKetama([X], 1)` with `X.ID = "lkibailn"`, one `RemoveNode("")`
leaves the position in `sortedKeys` (and deletes its map entry), the second call drops it: the
two states differ, and so do the lookups. -/
theorem RemoveNode_twice_differs :
    (RemoveNode (NewKetama [nodeX] 1) "").sortedKeys = [0x472a78bc] ∧
      (RemoveNode (RemoveNode (NewKetama [nodeX] 1) "") "").sortedKeys = [] ∧
      GetNode (RemoveNode (NewKetama [nodeX] 1) "") "anything" = (Node.zero, true) ∧
      GetNode (RemoveNode (RemoveNode (NewKetama [nodeX] 1) "") "") "anything" =
        (Node.zero, false) :=
  ⟨by decide!, by decide!, by decide!, by decide!⟩

/-- C8, amended: for every ring state and every identifier `id` that is non-empty, or such that
no entry of `sortedKeys` that is a derived hash of `""` is owned by a node with a non-empty ID:
calling `RemoveNode(id)` twice leaves exactly the state of calling it once. -/
theorem RemoveNode_idempotent {α : Type} (k : Ketama α) (nodeID : String)
    (hid : nodeID ≠ "" ∨ ∀ p ∈ k.sortedKeys, p ∈ derivedKeys "" k.virtualNodes →
      (mapIndex k.nodeHashMap p).ID = "") :
    RemoveNode (RemoveNode k nodeID) nodeID = RemoveNode k nodeID := by
  have hS : (RemoveNode (RemoveNode k nodeID) nodeID).sortedKeys =
      (RemoveNode k nodeID).sortedKeys := by
    rw [RemoveNode_sortedKeys (RemoveNode k nodeID)]
    apply List.filter_eq_self.mpr
    intro p hp
    rw [RemoveNode_sortedKeys, List.mem_filter] at hp
    obtain ⟨hpS, hpID⟩ := hp
    have hpID' : (mapIndex k.nodeHashMap p).ID ≠ nodeID := by simpa using hpID
    rw [RemoveNode_nodeHashMap, mapIndex_removed]
    by_cases hpd : p ∈ derivedKeys nodeID k.virtualNodes
    · rw [if_pos hpd]
      rcases hid with hid | hid
      · simpa [Node.zero] using fun h : "" = nodeID => hid h.symm
      · by_cases hnid : nodeID = ""
        · subst hnid
          exact absurd (hid p hpS hpd) hpID'
        · simpa [Node.zero] using fun h : "" = nodeID => hnid h.symm
    · rw [if_neg hpd]
      simpa using hpID'
  have hM : (RemoveNode (RemoveNode k nodeID) nodeID).nodeHashMap =
      (RemoveNode k nodeID).nodeHashMap := by
    rw [RemoveNode_nodeHashMap (RemoveNode k nodeID), RemoveNode_virtualNodes,
      RemoveNode_nodeHashMap, List.filter_filter]
    apply List.filter_congr
    intro e _
    simp
  have hV : (RemoveNode (RemoveNode k nodeID) nodeID).virtualNodes =
      (RemoveNode k nodeID).virtualNodes := rfl
  calc RemoveNode (RemoveNode k nodeID) nodeID
      = { sortedKeys := (RemoveNode (RemoveNode k nodeID) nodeID).sortedKeys
          nodeHashMap := (RemoveNode (RemoveNode k nodeID) nodeID).nodeHashMap
          virtualNodes := (RemoveNode (RemoveNode k nodeID) nodeID).virtualNodes } := rfl
    _ = { sortedKeys := (RemoveNode k nodeID).sortedKeys
          nodeHashMap := (RemoveNode k nodeID).nodeHashMap
          virtualNodes := (RemoveNode k nodeID).virtualNodes } := by rw [hS, hM, hV]
    _ = RemoveNode k nodeID := rfl

/-- Instance of the amended C8: removing `"A"` twice from `NewKetama([A, B], 3)`. -/
theorem RemoveNode_idempotent_witness :
    RemoveNode (RemoveNode ringAB "A") "A" = RemoveNode ringAB "A" :=
  RemoveNode_idempotent ringAB "A" (Or.inl (by decide))

/-- C7, counterexample: the identifier `"lkibailnA"` was never added to `NewKetama([A], 1)`, but
its derived hash equals that of `"A-0"`. `RemoveNode("lkibailnA")` deletes the map entry of `A`
and keeps the position, so the lookup changes from `(A, true)` to the zero node. On the ring so
obtained the empty identifier was never added either and none of its derived hashes is a map
key, yet `RemoveNode("")` drops the position whose map entry is missing, and the lookup changes
again, to not found. -/
theorem RemoveNode_never_added_changes_lookup :
    ReachableWithout "lkibailnA" (NewKetama [nodeA] 1) ∧
      GetNode (NewKetama [nodeA] 1) "anything" = (nodeA, true) ∧
      GetNode (RemoveNode (NewKetama [nodeA] 1) "lkibailnA") "anything" = (Node.zero, true) ∧
      ReachableWithout "" (RemoveNode (NewKetama [nodeA] 1) "lkibailnA") ∧
      (∀ p ∈ derivedKeys "" 1,
        (RemoveNode (NewKetama [nodeA] 1) "lkibailnA").nodeHashMap.lookup p = none) ∧
      GetNode (RemoveNode (RemoveNode (NewKetama [nodeA] 1) "lkibailnA") "") "anything" =
        (Node.zero, false) :=
  ⟨ReachableWithout.init _ _ (by decide), by decide!, by decide!,
    ReachableWithout.remove _ (ReachableWithout.init _ _ (by decide)), by decide!, by decide!⟩

/-- C7, amended: on a ring reachable without ever adding a node with identifier `id`, if no
derived hash of `id` is a key of `nodeHashMap` and, when `id` is the empty string, every entry of
`sortedKeys` has an entry in `nodeHashMap`, then `RemoveNode(id)` leaves the ring state, and so
every `GetNode` result, unchanged. -/
theorem RemoveNode_never_added_noop {α : Type} (k : Ketama α) (nodeID key : String)
    (hk : ReachableWithout nodeID k)
    (hcol : ∀ p ∈ derivedKeys nodeID k.virtualNodes, k.nodeHashMap.lookup p = none)
    (hlock : nodeID = "" → SequenceMapped k) :
    RemoveNode k nodeID = k ∧ GetNode (RemoveNode k nodeID) key = GetNode k key := by
  have hS : (RemoveNode k nodeID).sortedKeys = k.sortedKeys := by
    rw [RemoveNode_sortedKeys]
    apply List.filter_eq_self.mpr
    intro p hp
    cases hlk : k.nodeHashMap.lookup p with
    | none =>
      have hne : nodeID ≠ "" := by
        intro h
        have := hlock h p hp
        rw [hlk] at this
        cases this
      rw [mapIndex_of_lookup_none _ _ hlk]
      simpa [Node.zero] using fun h : "" = nodeID => hne h.symm
    | some node =>
      rw [mapIndex_of_lookup _ _ _ hlk]
      simpa using hk.not_stored p node hlk
  have hM : (RemoveNode k nodeID).nodeHashMap = k.nodeHashMap := by
    rw [RemoveNode_nodeHashMap]
    apply List.filter_eq_self.mpr
    intro e he
    have h1 := lookup_isSome_of_mem _ e he
    have h2 : e.1 ∉ derivedKeys nodeID k.virtualNodes := by
      intro hmem
      rw [hcol e.1 hmem] at h1
      cases h1
    simpa using h2
  have heq : RemoveNode k nodeID = k := by
    calc RemoveNode k nodeID
        = { sortedKeys := (RemoveNode k nodeID).sortedKeys
            nodeHashMap := (RemoveNode k nodeID).nodeHashMap
            virtualNodes := k.virtualNodes } := rfl
      _ = { sortedKeys := k.sortedKeys
            nodeHashMap := k.nodeHashMap
            virtualNodes := k.virtualNodes } := by rw [hS, hM]
      _ = k := rfl
  exact ⟨heq, by rw [heq]⟩

/-- Instance of the amended C7: removing the unknown identifier `"C"` from
`NewKetama([A, B], 3)`. -/
theorem RemoveNode_never_added_noop_witness :
    RemoveNode ringAB "C" = ringAB ∧
      GetNode (RemoveNode ringAB "C") "anything" = GetNode ringAB "anything" :=
  RemoveNode_never_added_noop ringAB "C" "anything"
    (ReachableWithout.init _ _ (by decide)) (by decide!) (fun h => absurd h (by decide))

/-! ## Addition -/

/-- C5: on a reachable ring, `GetNode(k)` after `AddNode(n)` is either what it was before or
`(n, true)`; and if the ring position selected for `k` after the addition is not one of the
derived hashes of `n`, the result is unchanged. -/
theorem AddNode_monotone {α : Type} (k : Ketama α) (n : Node α) (key : String)
    (hk : Reachable k) :
    (GetNode (AddNode k n) key = GetNode k key ∨ GetNode (AddNode k n) key = (n, true)) ∧
      (selectedKey (AddNode k n) key ∉ derivedKeys n.ID k.virtualNodes →
        GetNode (AddNode k n) key = GetNode k key) := by
  have hS : (AddNode k n).sortedKeys =
      sortSlice (k.sortedKeys ++ derivedKeys n.ID k.virtualNodes) := by
    rw [AddNode, addNode_eq]
  have hM : (AddNode k n).nodeHashMap =
      storeAll k.nodeHashMap (derivedKeys n.ID k.virtualNodes) n := by
    rw [AddNode, addNode_eq]
  have hmemS : ∀ x, x ∈ (AddNode k n).sortedKeys ↔
      x ∈ k.sortedKeys ∨ x ∈ derivedKeys n.ID k.virtualNodes := by
    intro x
    rw [hS, sortSlice, List.mem_insertionSort, List.mem_append]
  have hkeep : selectedKey (AddNode k n) key ∉ derivedKeys n.ID k.virtualNodes →
      GetNode (AddNode k n) key = GetNode k key := by
    intro hnot
    by_cases hne : (AddNode k n).sortedKeys = []
    · have hnil : k.sortedKeys = [] := by
        apply List.eq_nil_iff_forall_not_mem.mpr
        intro x hx
        have := (hmemS x).mpr (Or.inl hx)
        rw [hne] at this
        cases this
      rw [GetNode_of_nil _ _ hne, GetNode_of_nil _ _ hnil]
    · have hsucc := selectedKey_isSuccessor (AddNode k n) key (addNode_sorted k n) hne
      obtain ⟨hin, hcase⟩ := hsucc
      have hinS : selectedKey (AddNode k n) key ∈ k.sortedKeys := by
        rcases (hmemS _).mp hin with h | h
        · exact h
        · exact absurd h hnot
      have hne0 : k.sortedKeys ≠ [] := List.ne_nil_of_mem hinS
      have hold : IsSuccessor k.sortedKeys (ChecksumIEEE (bytes key))
          (selectedKey (AddNode k n) key) := by
        refine ⟨hinS, ?_⟩
        rcases hcase with ⟨h1, h2⟩ | ⟨h1, h2⟩
        · exact Or.inl ⟨h1, fun x hx hhx => h2 x ((hmemS x).mpr (Or.inl hx)) hhx⟩
        · exact Or.inr ⟨fun x hx => h1 x ((hmemS x).mpr (Or.inl hx)),
            fun x hx => h2 x ((hmemS x).mpr (Or.inl hx))⟩
      have hsame : selectedKey k key = selectedKey (AddNode k n) key :=
        IsSuccessor.unique (selectedKey_isSuccessor k key hk.sorted hne0) hold
      rw [GetNode_of_ne_nil _ _ hne, GetNode_of_ne_nil _ _ hne0, hsame, hM, mapIndex_storeAll,
        if_neg hnot]
  refine ⟨?_, hkeep⟩
  by_cases hsel : selectedKey (AddNode k n) key ∈ derivedKeys n.ID k.virtualNodes
  · right
    have hne : (AddNode k n).sortedKeys ≠ [] := by
      intro hnil
      have := (hmemS _).mpr (Or.inr hsel)
      rw [hnil] at this
      cases this
    rw [GetNode_of_ne_nil _ _ hne, hM, mapIndex_storeAll, if_pos hsel]
  · left
    exact hkeep hsel

/-- Instance of C5: adding `B` to the reachable ring `NewKetama([A], 3)`, probe key
`"anything"`. -/
theorem AddNode_monotone_witness :
    (GetNode (AddNode (NewKetama [nodeA] 3) nodeB) "anything" =
        GetNode (NewKetama [nodeA] 3) "anything" ∨
      GetNode (AddNode (NewKetama [nodeA] 3) nodeB) "anything" = (nodeB, true)) ∧
    (selectedKey (AddNode (NewKetama [nodeA] 3) nodeB) "anything" ∉ derivedKeys nodeB.ID 3 →
      GetNode (AddNode (NewKetama [nodeA] 3) nodeB) "anything" =
        GetNode (NewKetama [nodeA] 3) "anything") :=
  AddNode_monotone (NewKetama [nodeA] 3) nodeB "anything" (Reachable.init _ _)

/-- C6, counterexample: `RemoveNode("lkibailnA")` on `NewKetama([A], 1)` leaves the position of
`"A-0"` in `sortedKeys` without a map entry. On that reachable ring the node with the empty ID
has a derived hash that is present neither in `sortedKeys` nor in `nodeHashMap`, yet adding and
removing it empties `sortedKeys`: the lookup was `(Node{}, true)` before and is not found after. -/
theorem AddNode_RemoveNode_not_restored :
    Reachable (RemoveNode (NewKetama [nodeA] 1) "lkibailnA") ∧
      (∀ p ∈ derivedKeys nodeE.ID 1,
        p ∉ (RemoveNode (NewKetama [nodeA] 1) "lkibailnA").sortedKeys ∧
        (RemoveNode (NewKetama [nodeA] 1) "lkibailnA").nodeHashMap.lookup p = none) ∧
      GetNode (RemoveNode (NewKetama [nodeA] 1) "lkibailnA") "anything" = (Node.zero, true) ∧
      GetNode (RemoveNode (AddNode (RemoveNode (NewKetama [nodeA] 1) "lkibailnA") nodeE) "")
        "anything" = (Node.zero, false) :=
  ⟨Reachable.remove _ (Reachable.init _ _), by decide!, by decide!, by decide!⟩

/-- C6, amended: on a reachable ring, for a node `n` none of whose derived hashes is present in
`sortedKeys` or `nodeHashMap`, and provided that, when `n.ID` is the empty string, every entry of
`sortedKeys` has an entry in `nodeHashMap`: `AddNode(n)` followed by `RemoveNode(n.ID)` restores
`sortedKeys` and `nodeHashMap`, and so every `GetNode` result. -/
theorem AddNode_RemoveNode_roundtrip {α : Type} (k : Ketama α) (n : Node α) (key : String)
    (hk : Reachable k)
    (hfresh : ∀ p ∈ derivedKeys n.ID k.virtualNodes,
      p ∉ k.sortedKeys ∧ k.nodeHashMap.lookup p = none)
    (hlock : n.ID = "" → SequenceMapped k) :
    RemoveNode (AddNode k n) n.ID = k ∧
      GetNode (RemoveNode (AddNode k n) n.ID) key = GetNode k key := by
  have hA : AddNode k n =
      { sortedKeys := sortSlice (k.sortedKeys ++ derivedKeys n.ID k.virtualNodes)
        nodeHashMap := storeAll k.nodeHashMap (derivedKeys n.ID k.virtualNodes) n
        virtualNodes := k.virtualNodes } := by
    rw [AddNode, addNode_eq]
  have hkeepS : ∀ p ∈ k.sortedKeys,
      decide ((mapIndex (storeAll k.nodeHashMap (derivedKeys n.ID k.virtualNodes) n) p).ID
        ≠ n.ID) = true := by
    intro p hp
    have hpG : p ∉ derivedKeys n.ID k.virtualNodes := fun h => (hfresh p h).1 hp
    rw [mapIndex_storeAll, if_neg hpG]
    cases hlk : k.nodeHashMap.lookup p with
    | none =>
      have hne : n.ID ≠ "" := by
        intro h
        have := hlock h p hp
        rw [hlk] at this
        cases this
      rw [mapIndex_of_lookup_none _ _ hlk]
      simpa [Node.zero] using fun h : "" = n.ID => hne h.symm
    | some node =>
      rw [mapIndex_of_lookup _ _ _ hlk]
      have hown := hk.owned p node hlk
      have : node.ID ≠ n.ID := by
        intro h
        rw [h] at hown
        exact hpG hown
      simpa using this
  have hdropG : ∀ p, p ∈ derivedKeys n.ID k.virtualNodes →
      ¬ decide ((mapIndex (storeAll k.nodeHashMap (derivedKeys n.ID k.virtualNodes) n) p).ID
        ≠ n.ID) = true := by
    intro p hp
    rw [mapIndex_storeAll, if_pos hp]
    simp
  have hS : (RemoveNode (AddNode k n) n.ID).sortedKeys = k.sortedKeys := by
    rw [RemoveNode_sortedKeys, hA]
    simp only []
    apply List.eq_of_perm_of_sorted (r := (· ≤ ·))
    · have h1 := List.Perm.filter
        (fun p => decide ((mapIndex (storeAll k.nodeHashMap
          (derivedKeys n.ID k.virtualNodes) n) p).ID ≠ n.ID))
        (List.perm_insertionSort (· ≤ ·) (k.sortedKeys ++ derivedKeys n.ID k.virtualNodes))
      have h2 : List.filter (fun p => decide ((mapIndex (storeAll k.nodeHashMap
          (derivedKeys n.ID k.virtualNodes) n) p).ID ≠ n.ID))
          (k.sortedKeys ++ derivedKeys n.ID k.virtualNodes) = k.sortedKeys := by
        rw [List.filter_append, List.filter_eq_self.mpr hkeepS,
          List.filter_eq_nil_iff.mpr hdropG, List.append_nil]
      rw [h2] at h1
      exact h1
    · exact (List.sorted_insertionSort _ _).filter _
    · exact hk.sorted
  have hM : (RemoveNode (AddNode k n) n.ID).nodeHashMap = k.nodeHashMap := by
    rw [RemoveNode_nodeHashMap, hA]
    simp only []
    rw [filter_storeAll (derivedKeys n.ID k.virtualNodes)
      (fun a => decide (a ∉ derivedKeys n.ID k.virtualNodes)) (by simp) k.nodeHashMap n]
    apply List.filter_eq_self.mpr
    intro e he
    have h1 := lookup_isSome_of_mem _ e he
    have h2 : e.1 ∉ derivedKeys n.ID k.virtualNodes := by
      intro hmem
      rw [(hfresh e.1 hmem).2] at h1
      cases h1
    simpa using h2
  have hV : (RemoveNode (AddNode k n) n.ID).virtualNodes = k.virtualNodes := by
    rw [RemoveNode_virtualNodes, hA]
  have heq : RemoveNode (AddNode k n) n.ID = k := by
    calc RemoveNode (AddNode k n) n.ID
        = { sortedKeys := (RemoveNode (AddNode k n) n.ID).sortedKeys
            nodeHashMap := (RemoveNode (AddNode k n) n.ID).nodeHashMap
            virtualNodes := (RemoveNode (AddNode k n) n.ID).virtualNodes } := rfl
      _ = { sortedKeys := k.sortedKeys
            nodeHashMap := k.nodeHashMap
            virtualNodes := k.virtualNodes } := by rw [hS, hM, hV]
      _ = k := rfl
  exact ⟨heq, by rw [heq]⟩

/-- Instance of the amended C6: adding `B` to `NewKetama([A], 3)` and removing `"B"` again. -/
theorem AddNode_RemoveNode_roundtrip_witness :
    RemoveNode (AddNode (NewKetama [nodeA] 3) nodeB) "B" = NewKetama [nodeA] 3 ∧
      GetNode (RemoveNode (AddNode (NewKetama [nodeA] 3) nodeB) "B") "anything" =
        GetNode (NewKetama [nodeA] 3) "anything" :=
  AddNode_RemoveNode_roundtrip (NewKetama [nodeA] 3) nodeB "anything" (Reachable.init _ _)
    (by decide!) (fun h => absurd h (by decide))

/-! ## Removing every node -/

theorem addNode_remaining {α : Type} (all : List (Node α)) (virtualNodes : Int)
    (k : Ketama α) (node : Node α) (hnode : node ∈ all)
    (hk : Remaining all virtualNodes [] k) : Remaining all virtualNodes [] (addNode k node) := by
  obtain ⟨hV, hlock, hown⟩ := hk
  rw [addNode_eq]
  refine ⟨hV, ?_, ?_⟩
  · intro p hp
    simp only [sortSlice, List.mem_insertionSort, List.mem_append] at hp
    simp only [lookup_storeAll]
    by_cases hpG : p ∈ derivedKeys node.ID k.virtualNodes
    · simp [hpG]
    · rw [if_neg hpG]
      rcases hp with hp | hp
      · exact hlock p hp
      · exact absurd hp hpG
  · intro p m hm
    simp only [lookup_storeAll] at hm
    by_cases hpG : p ∈ derivedKeys node.ID k.virtualNodes
    · rw [if_pos hpG] at hm
      cases hm
      rw [hV] at hpG
      exact ⟨hnode, List.not_mem_nil _, hpG⟩
    · rw [if_neg hpG] at hm
      exact hown p m hm

theorem foldl_addNode_remaining {α : Type} (all : List (Node α)) (virtualNodes : Int)
    (nodes : List (Node α)) (hsub : ∀ n ∈ nodes, n ∈ all) (k : Ketama α)
    (hk : Remaining all virtualNodes [] k) :
    Remaining all virtualNodes [] (nodes.foldl addNode k) := by
  induction nodes generalizing k with
  | nil => exact hk
  | cons x xs ih =>
    exact ih (fun n hn => hsub n (List.mem_cons_of_mem _ hn)) _
      (addNode_remaining all virtualNodes k x (hsub x (List.mem_cons_self _ _)) hk)

theorem RemoveNode_remaining {α : Type} (all : List (Node α)) (virtualNodes : Int)
    (removed : List String) (k : Ketama α) (nodeID : String)
    (hcol : ∀ n ∈ all, n.ID ≠ nodeID →
      ∀ p ∈ derivedKeys nodeID virtualNodes, p ∉ derivedKeys n.ID virtualNodes)
    (hk : Remaining all virtualNodes removed k) :
    Remaining all virtualNodes (nodeID :: removed) (RemoveNode k nodeID) := by
  obtain ⟨hV, hlock, hown⟩ := hk
  refine ⟨hV, ?_, ?_⟩
  · intro p hp
    rw [RemoveNode_sortedKeys, List.mem_filter] at hp
    obtain ⟨hpS, hpID⟩ := hp
    have hsome := hlock p hpS
    cases hlk : k.nodeHashMap.lookup p with
    | none =>
      rw [hlk] at hsome
      cases hsome
    | some m =>
      rw [mapIndex_of_lookup _ _ _ hlk] at hpID
      have hmID : m.ID ≠ nodeID := by simpa using hpID
      obtain ⟨hmall, _, hpm⟩ := hown p m hlk
      have hpG : p ∉ derivedKeys nodeID k.virtualNodes := by
        rw [hV]
        intro h
        exact hcol m hmall hmID p h hpm
      rw [RemoveNode_nodeHashMap, lookup_removed, if_neg hpG, hlk]
      rfl
  · intro p m hm
    rw [RemoveNode_nodeHashMap, lookup_removed] at hm
    by_cases hpG : p ∈ derivedKeys nodeID k.virtualNodes
    · rw [if_pos hpG] at hm
      cases hm
    · rw [if_neg hpG] at hm
      obtain ⟨hmall, hmrem, hpm⟩ := hown p m hm
      refine ⟨hmall, ?_, hpm⟩
      intro hmem
      rcases List.mem_cons.mp hmem with h | h
      · rw [h, ← hV] at hpm
        exact hpG hpm
      · exact hmrem h

theorem foldl_RemoveNode_remaining {α : Type} (all : List (Node α)) (virtualNodes : Int)
    (ids : List String)
    (hcol : ∀ id ∈ ids, ∀ n ∈ all, n.ID ≠ id →
      ∀ p ∈ derivedKeys id virtualNodes, p ∉ derivedKeys n.ID virtualNodes)
    (removed : List String) (k : Ketama α) (hk : Remaining all virtualNodes removed k) :
    Remaining all virtualNodes (ids.reverse ++ removed) (ids.foldl RemoveNode k) := by
  induction ids generalizing removed k with
  | nil => exact hk
  | cons x xs ih =>
    have h1 := RemoveNode_remaining all virtualNodes removed k x
      (hcol x (List.mem_cons_self _ _)) hk
    have h2 := ih (fun id hid => hcol id (List.mem_cons_of_mem _ hid)) (x :: removed)
      (RemoveNode k x) h1
    have hl : (x :: xs).reverse ++ removed = xs.reverse ++ x :: removed := by simp
    rw [hl]
    exact h2

/-- C9, counterexample: `"A"` and `"lkibailnA"` have the same derived hash. After
`NewKetama([A, XA], 1)`, `RemoveNode("A")` finds both positions owned by the later node and keeps
them but deletes the shared map entry; `RemoveNode("lkibailnA")` then sees the zero node as
owner and keeps them too. Every added ID has been removed, yet the ring still has two positions
and lookups report found. -/
theorem remove_all_not_empty :
    (List.foldl RemoveNode (NewKetama [nodeA, nodeXA] 1) ["A", "lkibailnA"]).sortedKeys =
        [0x88ea54a6, 0x88ea54a6] ∧
      GetNode (List.foldl RemoveNode (NewKetama [nodeA, nodeXA] 1) ["A", "lkibailnA"])
        "anything" = (Node.zero, true) :=
  ⟨by decide!, by decide!⟩

/-- C9, amended: build a ring from any node list and `virtualNodes`, add any further nodes, then
call `RemoveNode` with a list of identifiers, in any order, that contains the ID of every node
added. If no derived hash of a removed identifier is also a derived hash of an added node with a
different ID, the ring is empty again and `GetNode` reports not found for every key. -/
theorem remove_all_empties {α : Type} (nodes more : List (Node α)) (virtualNodes : Int)
    (ids : List String) (key : String)
    (hall : ∀ n ∈ nodes ++ more, n.ID ∈ ids)
    (hcol : ∀ id ∈ ids, ∀ n ∈ nodes ++ more, n.ID ≠ id →
      ∀ p ∈ derivedKeys id virtualNodes, p ∉ derivedKeys n.ID virtualNodes) :
    (ids.foldl RemoveNode (more.foldl AddNode (NewKetama nodes virtualNodes))).sortedKeys = [] ∧
      (ids.foldl RemoveNode (more.foldl AddNode (NewKetama nodes virtualNodes))).nodeHashMap
        = [] ∧
      GetNode (ids.foldl RemoveNode (more.foldl AddNode (NewKetama nodes virtualNodes))) key =
        (Node.zero, false) := by
  have hAdd : (AddNode : Ketama α → Node α → Ketama α) = addNode := rfl
  have hstart : Remaining (nodes ++ more) virtualNodes []
      ({ sortedKeys := [], nodeHashMap := [], virtualNodes := virtualNodes } : Ketama α) := by
    refine ⟨rfl, ?_, ?_⟩
    · intro p hp
      cases hp
    · intro p m hm
      cases hm
  have h1 : Remaining (nodes ++ more) virtualNodes [] (NewKetama nodes virtualNodes) :=
    foldl_addNode_remaining (nodes ++ more) virtualNodes nodes
      (fun n hn => List.mem_append_left _ hn) _ hstart
  have h2 : Remaining (nodes ++ more) virtualNodes []
      (more.foldl addNode (NewKetama nodes virtualNodes)) :=
    foldl_addNode_remaining (nodes ++ more) virtualNodes more
      (fun n hn => List.mem_append_right _ hn) _ h1
  have h3 : Remaining (nodes ++ more) virtualNodes (ids.reverse ++ [])
      (ids.foldl RemoveNode (more.foldl addNode (NewKetama nodes virtualNodes))) :=
    foldl_RemoveNode_remaining (nodes ++ more) virtualNodes ids hcol [] _ h2
  rw [hAdd]
  obtain ⟨_, hlock, hown⟩ := h3
  have hnone : ∀ p, (ids.foldl RemoveNode
      (more.foldl addNode (NewKetama nodes virtualNodes))).nodeHashMap.lookup p = none := by
    intro p
    cases hlk : (ids.foldl RemoveNode
      (more.foldl addNode (NewKetama nodes virtualNodes))).nodeHashMap.lookup p with
    | none => rfl
    | some m =>
      obtain ⟨hmall, hmrem, _⟩ := hown p m hlk
      exact absurd (by simpa using hall m hmall) hmrem
  have hS : (ids.foldl RemoveNode
      (more.foldl addNode (NewKetama nodes virtualNodes))).sortedKeys = [] := by
    apply List.eq_nil_iff_forall_not_mem.mpr
    intro p hp
    have := hlock p hp
    rw [hnone p] at this
    cases this
  exact ⟨hS, eq_nil_of_lookup_none _ hnone, GetNode_of_nil _ _ hS⟩

/-- Instance of the amended C9: `NewKetama([A], 2)`, then `AddNode(B)`, then `RemoveNode("B")`
and `RemoveNode("A")`. -/
theorem remove_all_empties_witness :
    GetNode (List.foldl RemoveNode (List.foldl AddNode (NewKetama [nodeA] 2) [nodeB])
      ["B", "A"]) "anything" = (Node.zero, false) :=
  (remove_all_empties [nodeA] [nodeB] 2 ["B", "A"] "anything" (by decide!) (by decide!)).2.2

/-! ## Frame and determinism -/

/-- C12: for every ring state, node `n` and hash `h` that is not one of the derived hashes of
`n`, `AddNode(n)` leaves the `nodeHashMap` entry at `h` (presence and owner) and the number of
occurrences of `h` in `sortedKeys` unchanged, and `virtualNodes` is unchanged. -/
theorem AddNode_frame {α : Type} (k : Ketama α) (n : Node α) (h : Nat)
    (hh : h ∉ derivedKeys n.ID k.virtualNodes) :
    (AddNode k n).nodeHashMap.lookup h = k.nodeHashMap.lookup h ∧
      (AddNode k n).sortedKeys.count h = k.sortedKeys.count h ∧
      (AddNode k n).virtualNodes = k.virtualNodes := by
  rw [AddNode, addNode_eq]
  refine ⟨?_, ?_, rfl⟩
  · simp only [lookup_storeAll, if_neg hh]
  · simp only [sortSlice]
    rw [(List.perm_insertionSort (· ≤ ·) _).count_eq, List.count_append,
      List.count_eq_zero_of_not_mem hh, Nat.add_zero]

/-- Instance of C12: adding `B` to `NewKetama([A], 3)` leaves the slot of `"A-0"` alone. -/
theorem AddNode_frame_witness :
    (AddNode (NewKetama [nodeA] 3) nodeB).nodeHashMap.lookup (generateNodeKey "A" 0) =
        (NewKetama [nodeA] 3).nodeHashMap.lookup (generateNodeKey "A" 0) ∧
      (AddNode (NewKetama [nodeA] 3) nodeB).sortedKeys.count (generateNodeKey "A" 0) =
        (NewKetama [nodeA] 3).sortedKeys.count (generateNodeKey "A" 0) ∧
      (AddNode (NewKetama [nodeA] 3) nodeB).virtualNodes = (NewKetama [nodeA] 3).virtualNodes :=
  AddNode_frame (NewKetama [nodeA] 3) nodeB (generateNodeKey "A" 0) (by decide!)

/-- C13: `GetNode` depends on the key only through its CRC-32: two keys with the same checksum
get identical results on every ring state. -/
theorem GetNode_depends_on_hash_only {α : Type} (k : Ketama α) (key1 key2 : String)
    (h : ChecksumIEEE (bytes key1) = ChecksumIEEE (bytes key2)) :
    GetNode k key1 = GetNode k key2 := by
  simp only [GetNode, getNodeIdx, h]

/-- Instance of C13: the distinct keys `"lkibailnA"` and `"A"` have the same checksum. -/
theorem GetNode_depends_on_hash_only_witness :
    "lkibailnA" ≠ "A" ∧ GetNode ringAB "lkibailnA" = GetNode ringAB "A" :=
  ⟨by decide, GetNode_depends_on_hash_only ringAB "lkibailnA" "A" (by decide!)⟩

/-- C15: after `NewKetama(nodes, V)` and any sequence of `AddNode` and `RemoveNode` calls,
`sortedKeys` is sorted ascending; `AddNode` leaves it sorted from any state, and `RemoveNode`
keeps a subsequence of it in the same order. -/
theorem sortedKeys_sorted_invariant {α : Type} (nodes : List (Node α)) (virtualNodes : Int)
    (ops : List (Op α)) (k : Ketama α) (n : Node α) (nodeID : String) :
    (run (NewKetama nodes virtualNodes) ops).sortedKeys.Sorted (· ≤ ·) ∧
      (AddNode k n).sortedKeys.Sorted (· ≤ ·) ∧
      (RemoveNode k nodeID).sortedKeys.Sublist k.sortedKeys := by
  refine ⟨((Reachable.init nodes virtualNodes).run ops).sorted, addNode_sorted k n, ?_⟩
  rw [RemoveNode_sortedKeys]
  exact List.filter_sublist _

theorem searchLoop_congr (f g : Nat → Bool) (n : Nat) (hfg : ∀ a, a < n → f a = g a) :
    ∀ (fuel i j : Nat), j ≤ n → searchLoop f fuel i j = searchLoop g fuel i j := by
  intro fuel
  induction fuel with
  | zero => intro i j _; rfl
  | succ fuel ih =>
    intro i j hjn
    by_cases hlt : i < j
    · have hmid : (i + j) >>> 1 = (i + j) / 2 := Nat.shiftRight_one _
      have hfgm : f ((i + j) / 2) = g ((i + j) / 2) := hfg _ (by omega)
      by_cases hf : g ((i + j) / 2) = true
      · simp only [searchLoop, hlt, hmid, hfgm, hf, if_true, Bool.not_true, Bool.false_eq_true,
          if_false]
        exact ih i _ (by omega)
      · have hf' : g ((i + j) / 2) = false := by simpa using hf
        simp only [searchLoop, hlt, hmid, hfgm, hf', if_true, Bool.not_false]
        exact ih _ j hjn
    · simp [searchLoop, hlt]

/-- C20: on every ring state with a non-empty `sortedKeys`, sorted or not, the index used by
`GetNode` after the wrap-around adjustment is below `len(sortedKeys)`, so `sortedKeys[idx]`
exists and `GetNode` returns the map entry at that position with found = true; the binary
search reads the sequence only inside its bounds, since the value assumed outside them does not
change its result. -/
theorem GetNode_index_in_range {α : Type} (k : Ketama α) (key : String) (d : Nat)
    (hne : k.sortedKeys ≠ []) :
    getNodeIdx k key < k.sortedKeys.length ∧
      k.sortedKeys[getNodeIdx k key]? = some (selectedKey k key) ∧
      GetNode k key = (mapIndex k.nodeHashMap (selectedKey k key), true) ∧
      Search k.sortedKeys.length
          (fun i => decide (k.sortedKeys.getD i d ≥ ChecksumIEEE (bytes key))) =
        Search k.sortedKeys.length
          (fun i => decide (k.sortedKeys.getD i 0 ≥ ChecksumIEEE (bytes key))) := by
  have hlt := getNodeIdx_lt k key hne
  refine ⟨hlt, ?_, GetNode_of_ne_nil k key hne, ?_⟩
  · rw [selectedKey, List.getD_eq_getElem _ _ hlt]
    exact List.getElem?_eq_getElem hlt
  · apply searchLoop_congr _ _ k.sortedKeys.length _ _ _ _ (le_refl _)
    intro a ha
    rw [List.getD_eq_getElem _ _ ha, List.getD_eq_getElem _ _ ha]

/-- Instance of C20 on the unsorted, unmapped state with `sortedKeys = [30, 10, 20]`. -/
theorem GetNode_index_in_range_witness :
    getNodeIdx ({ sortedKeys := [30, 10, 20], nodeHashMap := [], virtualNodes := 1 } : Ketama Nat)
      "anything" < 3 :=
  (GetNode_index_in_range
    ({ sortedKeys := [30, 10, 20], nodeHashMap := [], virtualNodes := 1 } : Ketama Nat)
    "anything" 7 (by decide)).1

/-! ## Weight and duplicate identifiers -/

theorem length_derivedKeys (nodeID : String) (virtualNodes : Int) :
    (derivedKeys nodeID virtualNodes).length = virtualNodes.toNat := by
  simp [derivedKeys]

theorem addNode_length {α : Type} (k : Ketama α) (node : Node α) :
    (addNode k node).sortedKeys.length = k.sortedKeys.length + k.virtualNodes.toNat := by
  rw [addNode_eq]
  simp [sortSlice, List.length_insertionSort, length_derivedKeys]

theorem storeAll_keys {α : Type} (keys : List Nat) (m1 m2 : List (Nat × Node α))
    (n1 n2 : Node α) (hm : m1.map Prod.fst = m2.map Prod.fst) :
    (storeAll m1 keys n1).map Prod.fst = (storeAll m2 keys n2).map Prod.fst := by
  induction keys generalizing m1 m2 with
  | nil => exact hm
  | cons x xs ih =>
    have h1 : storeAll m1 (x :: xs) n1 = storeAll (mapStore m1 x n1) xs n1 := rfl
    have h2 : storeAll m2 (x :: xs) n2 = storeAll (mapStore m2 x n2) xs n2 := rfl
    rw [h1, h2]
    apply ih
    have hf : ∀ m : List (Nat × Node α),
        (m.filter (fun e => e.1 != x)).map Prod.fst =
          (m.map Prod.fst).filter (fun a => a != x) := by
      intro m
      rw [List.filter_map]
      rfl
    simp only [mapStore, List.map_cons, hf, hm]

/-- C18: two nodes with the same ID, whatever their `Weight` and `Value`, give on every ring
state the same `sortedKeys` and the same `nodeHashMap` keys when added; each addition appends
exactly `virtualNodes` placements (for `virtualNodes >= 0`); every key selects the same ring
position in both rings and there either resolves to the added node in both or to the same
earlier owner in both. -/
theorem Weight_inert {α : Type} (k : Ketama α) (n1 n2 : Node α) (key : String)
    (hID : n1.ID = n2.ID) (hV : 0 ≤ k.virtualNodes) :
    (AddNode k n1).sortedKeys = (AddNode k n2).sortedKeys ∧
      (AddNode k n1).nodeHashMap.map Prod.fst = (AddNode k n2).nodeHashMap.map Prod.fst ∧
      ((AddNode k n1).sortedKeys.length : Int) = k.sortedKeys.length + k.virtualNodes ∧
      selectedKey (AddNode k n1) key = selectedKey (AddNode k n2) key ∧
      ((GetNode (AddNode k n1) key = (n1, true) ∧ GetNode (AddNode k n2) key = (n2, true)) ∨
        GetNode (AddNode k n1) key = GetNode (AddNode k n2) key) := by
  have hS : (AddNode k n1).sortedKeys = (AddNode k n2).sortedKeys := by
    rw [AddNode, AddNode, addNode_eq, addNode_eq, hID]
  have hM1 : (AddNode k n1).nodeHashMap =
      storeAll k.nodeHashMap (derivedKeys n2.ID k.virtualNodes) n1 := by
    rw [AddNode, addNode_eq, hID]
  have hM2 : (AddNode k n2).nodeHashMap =
      storeAll k.nodeHashMap (derivedKeys n2.ID k.virtualNodes) n2 := by
    rw [AddNode, addNode_eq]
  have hsel : selectedKey (AddNode k n1) key = selectedKey (AddNode k n2) key := by
    simp only [selectedKey, getNodeIdx, hS]
  refine ⟨hS, ?_, ?_, hsel, ?_⟩
  · rw [hM1, hM2]
    exact storeAll_keys _ _ _ n1 n2 rfl
  · rw [AddNode, addNode_length]
    have : ((k.virtualNodes.toNat : Nat) : Int) = k.virtualNodes := Int.toNat_of_nonneg hV
    omega
  · by_cases hne : (AddNode k n2).sortedKeys = []
    · right
      rw [GetNode_of_nil _ _ hne, GetNode_of_nil _ _ (hS.trans hne)]
    · have hne1 : (AddNode k n1).sortedKeys ≠ [] := fun h => hne (hS.symm.trans h)
      rw [GetNode_of_ne_nil _ _ hne, GetNode_of_ne_nil _ _ hne1, hsel, hM1, hM2,
        mapIndex_storeAll, mapIndex_storeAll]
      by_cases hp : selectedKey (AddNode k n2) key ∈ derivedKeys n2.ID k.virtualNodes
      · left
        rw [if_pos hp, if_pos hp]
        exact ⟨rfl, rfl⟩
      · right
        rw [if_neg hp, if_neg hp]

/-- Instance of C18: adding `"B"` with weight 2 or with weight 9 and another payload to
`NewKetama([A], 3)`. -/
theorem Weight_inert_witness :
    (AddNode (NewKetama [nodeA] 3) nodeB).sortedKeys =
      (AddNode (NewKetama [nodeA] 3) { ID := "B", Weight := 9, Value := none }).sortedKeys :=
  (Weight_inert (NewKetama [nodeA] 3) nodeB { ID := "B", Weight := 9, Value := none }
    "anything" rfl (by decide!)).1

/-- C17: for nodes `a` and `b` with the same ID and `V > 0`, after `NewKetama([a, b], V)`, which
is also `AddNode(a)` then `AddNode(b)` on an empty ring, the later node `b` owns every derived
hash slot and no map entry holds anything else, `sortedKeys` consists of the `V` derived hashes
each taken twice (`2 * V` entries, every value occurring twice as often as among the `V` derived
hashes), and every `GetNode` returns `(b, true)`. -/
theorem duplicate_ID_last_writer_wins {α : Type} (a b : Node α) (virtualNodes : Int)
    (key : String) (hID : a.ID = b.ID) (hV : 0 < virtualNodes) :
    (∀ p ∈ derivedKeys b.ID virtualNodes,
        (NewKetama [a, b] virtualNodes).nodeHashMap.lookup p = some b) ∧
      (∀ p, p ∉ derivedKeys b.ID virtualNodes →
        (NewKetama [a, b] virtualNodes).nodeHashMap.lookup p = none) ∧
      (NewKetama [a, b] virtualNodes).sortedKeys.Perm
        (derivedKeys b.ID virtualNodes ++ derivedKeys b.ID virtualNodes) ∧
      (∀ p, (NewKetama [a, b] virtualNodes).sortedKeys.count p =
        2 * (derivedKeys b.ID virtualNodes).count p) ∧
      ((NewKetama [a, b] virtualNodes).sortedKeys.length : Int) = 2 * virtualNodes ∧
      GetNode (NewKetama [a, b] virtualNodes) key = (b, true) ∧
      AddNode (AddNode (NewKetama [] virtualNodes) a) b = NewKetama [a, b] virtualNodes := by
  have hK : NewKetama [a, b] virtualNodes =
      addNode (addNode { sortedKeys := [], nodeHashMap := [], virtualNodes := virtualNodes } a)
        b := rfl
  have hS : (NewKetama [a, b] virtualNodes).sortedKeys =
      sortSlice (sortSlice (derivedKeys b.ID virtualNodes) ++ derivedKeys b.ID virtualNodes) := by
    rw [hK, addNode_eq, addNode_eq, hID]
    rfl
  have hM : (NewKetama [a, b] virtualNodes).nodeHashMap =
      storeAll (storeAll [] (derivedKeys b.ID virtualNodes) a)
        (derivedKeys b.ID virtualNodes) b := by
    rw [hK, addNode_eq, addNode_eq, hID]
  have hperm : (NewKetama [a, b] virtualNodes).sortedKeys.Perm
      (derivedKeys b.ID virtualNodes ++ derivedKeys b.ID virtualNodes) := by
    rw [hS]
    exact (List.perm_insertionSort _ _).trans
      ((List.perm_insertionSort _ _).append_right _)
  have hlen : (NewKetama [a, b] virtualNodes).sortedKeys.length = 2 * virtualNodes.toNat := by
    rw [hperm.length_eq, List.length_append, length_derivedKeys]
    omega
  refine ⟨?_, ?_, hperm, ?_, ?_, ?_, rfl⟩
  · intro p hp
    rw [hM, lookup_storeAll, if_pos hp]
  · intro p hp
    rw [hM, lookup_storeAll, if_neg hp, lookup_storeAll, if_neg hp]
    rfl
  · intro p
    rw [hperm.count_eq, List.count_append]
    omega
  · rw [hlen]
    have : ((virtualNodes.toNat : Nat) : Int) = virtualNodes := Int.toNat_of_nonneg (by omega)
    omega
  · have hne : (NewKetama [a, b] virtualNodes).sortedKeys ≠ [] := by
      intro h
      rw [h] at hlen
      simp only [List.length_nil] at hlen
      omega
    have hmem := hperm.subset (selectedKey_mem _ key hne)
    have hmem' : selectedKey (NewKetama [a, b] virtualNodes) key ∈
        derivedKeys b.ID virtualNodes := by
      rcases List.mem_append.mp hmem with h | h <;> exact h
    rw [GetNode_of_ne_nil _ _ hne, hM, mapIndex_storeAll, if_pos hmem']

/-- Instance of C17: two nodes with ID `"A"` and `virtualNodes = 3`. -/
theorem duplicate_ID_last_writer_wins_witness :
    GetNode (NewKetama [nodeA, { ID := "A", Weight := 7, Value := some 70 }] 3) "anything" =
      ({ ID := "A", Weight := 7, Value := some 70 }, true) :=
  (duplicate_ID_last_writer_wins nodeA { ID := "A", Weight := 7, Value := some 70 } 3
    "anything" rfl (by decide)).2.2.2.2.2.1

/-! ## Lockstep and minimal disruption -/

theorem addNode_lockstep {α : Type} (k : Ketama α) (node : Node α) (hk : Lockstep k) :
    Lockstep (addNode k node) := by
  intro p
  rw [addNode_eq]
  simp only [sortSlice, List.mem_insertionSort, List.mem_append, lookup_storeAll]
  by_cases hp : p ∈ derivedKeys node.ID k.virtualNodes
  · simp [hp]
  · rw [if_neg hp, ← hk p]
    simp [hp]

theorem RemoveNode_lockstep {α : Type} (k : Ketama α) (nodeID : String) (hk : Lockstep k)
    (hown : Owned k) (hfree : NoForeignOwner k nodeID) : Lockstep (RemoveNode k nodeID) := by
  intro p
  rw [RemoveNode_sortedKeys, RemoveNode_nodeHashMap, lookup_removed, List.mem_filter]
  constructor
  · rintro ⟨hpS, hpID⟩
    have hpID' : (mapIndex k.nodeHashMap p).ID ≠ nodeID := by simpa using hpID
    have hsome := (hk p).mp hpS
    have hpG : p ∉ derivedKeys nodeID k.virtualNodes := fun h => hpID' (hfree p h hsome)
    rw [if_neg hpG]
    exact hsome
  · intro h
    by_cases hpG : p ∈ derivedKeys nodeID k.virtualNodes
    · rw [if_pos hpG] at h
      cases h
    · rw [if_neg hpG] at h
      refine ⟨(hk p).mpr h, ?_⟩
      cases hlk : k.nodeHashMap.lookup p with
      | none =>
        rw [hlk] at h
        cases h
      | some m =>
        rw [mapIndex_of_lookup _ _ _ hlk]
        have hm := hown p m hlk
        have : m.ID ≠ nodeID := by
          intro heq
          rw [heq] at hm
          exact hpG hm
        simpa using this

theorem ReachableCollisionFree.toReachable {α : Type} {k : Ketama α}
    (hk : ReachableCollisionFree k) : Reachable k := by
  induction hk with
  | init nodes virtualNodes => exact Reachable.init nodes virtualNodes
  | add node _ ih => exact Reachable.add node ih
  | remove nodeID _ _ ih => exact Reachable.remove nodeID ih

/-- C16, counterexample: `"lkibailnA"` has the same derived hash as `"A"`. On the reachable
ring `RemoveNode("lkibailnA")` of `NewKetama([A], 1)` the hash of `"A-0"` is still in
`sortedKeys` but is no longer a key of `nodeHashMap`. -/
theorem lockstep_broken_by_collision :
    Reachable (RemoveNode (NewKetama [nodeA] 1) "lkibailnA") ∧
      0x88ea54a6 ∈ (RemoveNode (NewKetama [nodeA] 1) "lkibailnA").sortedKeys ∧
      (RemoveNode (NewKetama [nodeA] 1) "lkibailnA").nodeHashMap.lookup 0x88ea54a6 = none ∧
      ¬ Lockstep (RemoveNode (NewKetama [nodeA] 1) "lkibailnA") := by
  have h1 : 0x88ea54a6 ∈ (RemoveNode (NewKetama [nodeA] 1) "lkibailnA").sortedKeys := by
    decide!
  have h2 : (RemoveNode (NewKetama [nodeA] 1) "lkibailnA").nodeHashMap.lookup 0x88ea54a6
      = none := by
    decide!
  refine ⟨Reachable.remove _ (Reachable.init _ _), h1, h2, ?_⟩
  intro hl
  have h3 := (hl 0x88ea54a6).mp h1
  rw [h2] at h3
  cases h3

/-- C16, amended: in every ring state reached from `NewKetama(nodes, V)` by `AddNode` calls and
by `RemoveNode` calls made when no derived hash of the removed identifier is a map key owned by
a node with a different ID, the hash values occurring in `sortedKeys` are exactly the keys of
`nodeHashMap`. -/
theorem lockstep_invariant {α : Type} (k : Ketama α) (hk : ReachableCollisionFree k) :
    Lockstep k := by
  induction hk with
  | init nodes virtualNodes =>
    exact foldl_addNode_induction Lockstep addNode_lockstep nodes _
      (fun p => by simp)
  | add node _ ih => exact addNode_lockstep _ node ih
  | remove nodeID hk' hfree ih =>
    exact RemoveNode_lockstep _ nodeID ih hk'.toReachable.owned hfree

/-- Instance of the amended C16: `NewKetama([A, B], 3)`, then `RemoveNode("A")`, then
`AddNode(A)`. -/
theorem lockstep_invariant_witness : Lockstep (AddNode (RemoveNode ringAB "A") nodeA) :=
  lockstep_invariant _
    (ReachableCollisionFree.add nodeA
      (ReachableCollisionFree.remove "A" (ReachableCollisionFree.init _ _) (by decide!)))

/-- C19: on a reachable ring, for an identifier `id` none of whose derived hashes is owned in
`nodeHashMap` by a node with a different ID, every key whose lookup returned a node with
`ID != id` before `RemoveNode(id)` gets exactly the same result after it. The lockstep of
`sortedKeys` and `nodeHashMap` is not needed for this. -/
theorem RemoveNode_minimal_disruption {α : Type} (k : Ketama α) (nodeID key : String)
    (node : Node α) (found : Bool) (hk : Reachable k) (hfree : NoForeignOwner k nodeID)
    (hget : GetNode k key = (node, found)) (hne : node.ID ≠ nodeID) :
    GetNode (RemoveNode k nodeID) key = (node, found) := by
  by_cases hnil : k.sortedKeys = []
  · have hnil' : (RemoveNode k nodeID).sortedKeys = [] := by
      rw [RemoveNode_sortedKeys, hnil]
      rfl
    rw [GetNode_of_nil _ _ hnil'] 
    rw [GetNode_of_nil _ _ hnil] at hget
    exact hget
  · rw [GetNode_of_ne_nil _ _ hnil] at hget
    have hnode : mapIndex k.nodeHashMap (selectedKey k key) = node := congrArg Prod.fst hget
    have hfound : true = found := congrArg Prod.snd hget
    have hsucc := selectedKey_isSuccessor k key hk.sorted hnil
    have hmem' : selectedKey k key ∈ (RemoveNode k nodeID).sortedKeys := by
      rw [RemoveNode_sortedKeys, List.mem_filter]
      refine ⟨hsucc.1, ?_⟩
      rw [hnode]
      simpa using hne
    have hsub : ∀ x, x ∈ (RemoveNode k nodeID).sortedKeys → x ∈ k.sortedKeys := by
      intro x hx
      rw [RemoveNode_sortedKeys] at hx
      exact (List.mem_filter.mp hx).1
    have hnew : IsSuccessor (RemoveNode k nodeID).sortedKeys (ChecksumIEEE (bytes key))
        (selectedKey k key) := by
      refine ⟨hmem', ?_⟩
      rcases hsucc.2 with ⟨h1, h2⟩ | ⟨h1, h2⟩
      · exact Or.inl ⟨h1, fun x hx hhx => h2 x (hsub x hx) hhx⟩
      · exact Or.inr ⟨fun x hx => h1 x (hsub x hx), fun x hx => h2 x (hsub x hx)⟩
    have hne' : (RemoveNode k nodeID).sortedKeys ≠ [] := List.ne_nil_of_mem hmem'
    have hsel : selectedKey (RemoveNode k nodeID) key = selectedKey k key :=
      IsSuccessor.unique
        (selectedKey_isSuccessor _ key (RemoveNode_sorted k nodeID hk.sorted) hne') hnew
    rw [GetNode_of_ne_nil _ _ hne', hsel, RemoveNode_nodeHashMap, mapIndex_removed, ← hfound]
    by_cases hpG : selectedKey k key ∈ derivedKeys nodeID k.virtualNodes
    · rw [if_pos hpG]
      cases hlk : k.nodeHashMap.lookup (selectedKey k key) with
      | none =>
        rw [mapIndex_of_lookup_none _ _ hlk] at hnode
        rw [hnode]
      | some m =>
        have hID := hfree _ hpG (by rw [hlk]; rfl)
        rw [hnode] at hID
        exact absurd hID hne
    · rw [if_neg hpG, hnode]

/-- Instance of C19: on `NewKetama([A, B], 3)` the key `"anything"` resolves to `B`, and still
does after `RemoveNode("A")`. -/
theorem RemoveNode_minimal_disruption_witness :
    GetNode ringAB "anything" = (nodeB, true) ∧
      GetNode (RemoveNode ringAB "A") "anything" = (nodeB, true) :=
  ⟨by decide!, RemoveNode_minimal_disruption ringAB "A" "anything" nodeB true
    (Reachable.init _ _) (by decide!) (by decide!) (by decide)⟩

/-! ## Size of a freshly built ring -/

theorem foldl_addNode_length {α : Type} (nodes : List (Node α)) (k : Ketama α) :
    (nodes.foldl addNode k).sortedKeys.length =
      k.sortedKeys.length + nodes.length * k.virtualNodes.toNat := by
  induction nodes generalizing k with
  | nil => simp
  | cons x xs ih =>
    rw [List.foldl_cons, ih, addNode_length, addNode_virtualNodes, List.length_cons,
      Nat.succ_mul]
    omega

theorem storeAll_fresh {α : Type} (keys : List Nat) (m : List (Nat × Node α)) (n : Node α)
    (hnd : keys.Nodup) (hfresh : ∀ p ∈ keys, p ∉ m.map Prod.fst) :
    storeAll m keys n = keys.reverse.map (fun p => (p, n)) ++ m := by
  induction keys generalizing m with
  | nil => rfl
  | cons x xs ih =>
    have hstep : storeAll m (x :: xs) n = storeAll (mapStore m x n) xs n := rfl
    have hx : m.filter (fun e => e.1 != x) = m := by
      apply List.filter_eq_self.mpr
      intro e he
      have hne : e.1 ≠ x := by
        intro h
        exact hfresh x (List.mem_cons_self _ _) (h ▸ List.mem_map_of_mem Prod.fst he)
      simpa using hne
    have hstore : mapStore m x n = (x, n) :: m := by
      simp only [mapStore, hx]
    obtain ⟨hxs, hnd'⟩ := List.nodup_cons.mp hnd
    rw [hstep, hstore, ih _ hnd']
    · simp
    · intro p hp hmem
      rcases List.mem_cons.mp hmem with h | h
      · have hpx : p = x := h
        exact hxs (hpx ▸ hp)
      · exact hfresh p (List.mem_cons_of_mem _ hp) h

theorem foldl_addNode_fresh {α : Type} (nodes : List (Node α)) (k : Ketama α)
    (hnd : (allDerivedKeys nodes k.virtualNodes).Nodup)
    (hfresh : ∀ p ∈ allDerivedKeys nodes k.virtualNodes, p ∉ k.nodeHashMap.map Prod.fst) :
    (nodes.foldl addNode k).nodeHashMap =
      nodes.reverse.flatMap (placements k.virtualNodes) ++ k.nodeHashMap := by
  induction nodes generalizing k with
  | nil => simp
  | cons x xs ih =>
    have hall : allDerivedKeys (x :: xs) k.virtualNodes =
        derivedKeys x.ID k.virtualNodes ++ allDerivedKeys xs k.virtualNodes := by
      simp [allDerivedKeys]
    rw [hall] at hnd hfresh
    obtain ⟨hndx, hndxs, hdisj⟩ := List.nodup_append.mp hnd
    have hmap : (addNode k x).nodeHashMap = placements k.virtualNodes x ++ k.nodeHashMap := by
      rw [addNode_eq]
      exact storeAll_fresh _ _ x hndx (fun p hp => hfresh p (List.mem_append_left _ hp))
    have hV : (addNode k x).virtualNodes = k.virtualNodes := addNode_virtualNodes k x
    rw [List.foldl_cons, ih (addNode k x) (by rw [hV]; exact hndxs) ?_, hV, hmap]
    · simp
    · rw [hV, hmap]
      intro p hp hmem
      rw [List.map_append, List.mem_append] at hmem
      rcases hmem with h | h
      · have hpx : p ∈ derivedKeys x.ID k.virtualNodes := by
          simpa [placements] using h
        exact hdisj hpx hp
      · exact hfresh p (List.mem_append_right _ hp) h

theorem length_flatMap_placements {α : Type} (virtualNodes : Int) (l : List (Node α)) :
    (l.flatMap (placements virtualNodes)).length = l.length * virtualNodes.toNat := by
  induction l with
  | nil => simp
  | cons x xs ih =>
    rw [List.flatMap_cons, List.length_append, ih, List.length_cons, Nat.succ_mul]
    simp [placements, length_derivedKeys]
    omega

theorem filter_placements {α : Type} [DecidableEq α] (virtualNodes : Int) (n : Node α)
    (l : List (Node α)) :
    ((l.flatMap (placements virtualNodes)).filter (fun e => decide (e.2 = n))).length =
      l.count n * virtualNodes.toNat := by
  induction l with
  | nil => simp
  | cons x xs ih =>
    rw [List.flatMap_cons, List.filter_append, List.length_append, ih, List.count_cons]
    by_cases hx : x = n
    · subst hx
      have hall : (placements virtualNodes x).filter (fun e => decide (e.2 = x)) =
          placements virtualNodes x := by
        apply List.filter_eq_self.mpr
        intro e he
        simp only [placements, List.mem_map] at he
        obtain ⟨p, _, hpe⟩ := he
        simp [← hpe]
      rw [hall]
      simp [placements, length_derivedKeys, Nat.add_mul]
      omega
    · have hnone : (placements virtualNodes x).filter (fun e => decide (e.2 = n)) = [] := by
        apply List.filter_eq_nil_iff.mpr
        intro e he
        simp only [placements, List.mem_map] at he
        obtain ⟨p, _, hpe⟩ := he
        simp [← hpe, hx]
      rw [hnone]
      simp [hx]

theorem nodup_of_allDerivedKeys {α : Type} (virtualNodes : Int) (hV : 0 < virtualNodes.toNat)
    (l : List (Node α)) (hnd : (allDerivedKeys l virtualNodes).Nodup) : l.Nodup := by
  induction l with
  | nil => exact List.nodup_nil
  | cons x xs ih =>
    have hall : allDerivedKeys (x :: xs) virtualNodes =
        derivedKeys x.ID virtualNodes ++ allDerivedKeys xs virtualNodes := by
      simp [allDerivedKeys]
    rw [hall] at hnd
    obtain ⟨_, hndxs, hdisj⟩ := List.nodup_append.mp hnd
    refine List.nodup_cons.mpr ⟨?_, ih hndxs⟩
    intro hx
    have hpos : 0 < (derivedKeys x.ID virtualNodes).length := by
      rw [length_derivedKeys]
      exact hV
    obtain ⟨p, hp⟩ := List.exists_mem_of_length_pos hpos
    have hp' : p ∈ allDerivedKeys xs virtualNodes :=
      List.mem_flatMap.mpr ⟨x, hx, hp⟩
    exact hdisj hp hp'

/-- C11: for `N` nodes and `V >= 0`, `NewKetama(nodes, V)` has exactly `N * V` entries in
`sortedKeys`; when the `N * V` derived hashes are pairwise distinct, `nodeHashMap` also has
exactly `N * V` entries, and exactly `V` of them hold each node of the list. -/
theorem NewKetama_size {α : Type} [DecidableEq α] (nodes : List (Node α)) (virtualNodes : Int)
    (hV : 0 ≤ virtualNodes) :
    ((NewKetama nodes virtualNodes).sortedKeys.length : Int) = nodes.length * virtualNodes ∧
      ((allDerivedKeys nodes virtualNodes).Nodup →
        ((NewKetama nodes virtualNodes).nodeHashMap.length : Int) =
            nodes.length * virtualNodes ∧
          ∀ n ∈ nodes,
            (((NewKetama nodes virtualNodes).nodeHashMap.filter
              (fun e => decide (e.2 = n))).length : Int) = virtualNodes) := by
  have hcast : ((virtualNodes.toNat : Nat) : Int) = virtualNodes := Int.toNat_of_nonneg hV
  constructor
  · have h := foldl_addNode_length nodes
      ({ sortedKeys := [], nodeHashMap := [], virtualNodes := virtualNodes } : Ketama α)
    have h' : (NewKetama nodes virtualNodes).sortedKeys.length =
        nodes.length * virtualNodes.toNat := by
      simpa [NewKetama] using h
    rw [h', Nat.cast_mul, hcast]
  · intro hnd
    have hM : (NewKetama nodes virtualNodes).nodeHashMap =
        nodes.reverse.flatMap (placements virtualNodes) := by
      have h := foldl_addNode_fresh nodes
        ({ sortedKeys := [], nodeHashMap := [], virtualNodes := virtualNodes } : Ketama α)
        hnd (fun p _ hmem => by cases hmem)
      simpa [NewKetama] using h
    constructor
    · rw [hM, length_flatMap_placements, List.length_reverse, Nat.cast_mul, hcast]
    · intro n hn
      rw [hM, filter_placements, List.count_reverse]
      by_cases hpos : 0 < virtualNodes.toNat
      · rw [List.count_eq_one_of_mem (nodup_of_allDerivedKeys virtualNodes hpos nodes hnd) hn,
          Nat.one_mul, hcast]
      · have h0 : virtualNodes.toNat = 0 := by omega
        rw [h0, Nat.mul_zero, ← hcast, h0]

/-- Instance of C11: `NewKetama([A, B], 3)` has six sequence entries and, its six derived
hashes being distinct, six map entries, three of them holding `A`. -/
theorem NewKetama_size_witness :
    (ringAB.sortedKeys.length : Int) = 2 * 3 ∧ (ringAB.nodeHashMap.length : Int) = 2 * 3 ∧
      ((ringAB.nodeHashMap.filter (fun e => decide (e.2 = nodeA))).length : Int) = 3 :=
  ⟨(NewKetama_size [nodeA, nodeB] 3 (by decide)).1,
    ((NewKetama_size [nodeA, nodeB] 3 (by decide)).2 (by decide!)).1,
    ((NewKetama_size [nodeA, nodeB] 3 (by decide)).2 (by decide!)).2 nodeA (by decide)⟩

end HashRing
